import Mathlib

/-!
# Verification of the markdown-export collapsed-structure subsystem

Shallow embedding of `src/provide/foundry/mkdocs_plugins/markdown_export.py`:
the Structure Collapser (`_collapse_structure`), the Cross-Reference Rewriter
(`_update_cross_references`) and the per-page exporter
(`_export_page_markdown`).

The output tree is modelled as a list of files, each a path (list of
components, relative to the output root, the root itself being `[]`)
together with its text content.  Directories are implicit: a directory
exists exactly when some file lies strictly below it.  This matches the
tree the Page Collector produces (it only ever writes files; the Collapser
removes a directory exactly when it becomes empty).

Path objects compare by their slash-joined string form (CPython ≥ 3.12
`PurePath.__lt__` compares the string of the path; CPython ≤ 3.11 compared
the tuple of components instead, which differs only when one component is a
proper prefix of another at the point of divergence), so
`sorted(..., reverse=True)` is modelled by an insertion sort descending
under code-point lexicographic order on the joined string. The concrete
counterexample trees below are chosen so that their enumeration order — and
hence the verdict they establish — is the same under both orderings.

Well-formedness (`WF`) captures the trees the export pipeline can hand to
the Collapser: distinct paths, non-empty slash-free components, no
`__pycache__` component, every file named `*.md`, and no *directory*
named `*.md` (the Collector derives directory names from site URLs and
file names from `dest_path` with the `.html` suffix replaced by `.md`).
Under `WF` the Python code never raises inside `_collapse_structure`
(`rmdir` always sees an emptied directory, `rename` never targets an
existing directory), so the total model below is faithful.
-/

set_option autoImplicit false

namespace MdExport

/-- A path relative to the output root: list of components, root = `[]`. -/
abbrev Path := List String

/-- One file of the output tree: its relative path and text content. -/
structure FSFile where
  path : Path
  content : String
  deriving DecidableEq, Repr

/-- The output tree: the list of files below the output root. -/
abbrev FS := List FSFile

/-- Characters of the slash-joined string form of a relative path
(`str(p.relative_to(output_root))` in the Python code). -/
def pathChars : Path → List Char
  | [] => []
  | [c] => c.data
  | c :: c' :: rest => c.data ++ '/' :: pathChars (c' :: rest)

/-- Slash-joined string form of a relative path. -/
def pathStr (p : Path) : String := ⟨pathChars p⟩

/-- Code-point lexicographic order on character lists: exactly how CPython
compares the `str` forms of two `Path` objects. -/
def lexLt : List Char → List Char → Bool
  | _, [] => false
  | [], _ :: _ => true
  | a :: as, b :: bs => decide (a < b) || (a == b && lexLt as bs)

/-- Comparison of two paths as CPython's `PurePath.__lt__` does. -/
def pathLt (p q : Path) : Bool := lexLt (pathChars p) (pathChars q)

/-- Insert into a descending list, before the first strictly smaller
element: one step of the model of `sorted(..., reverse=True)`. -/
def insertDesc (p : Path) : List Path → List Path
  | [] => [p]
  | q :: t => if pathLt q p then p :: q :: t else q :: insertDesc p t

/-- Sort a list of paths descending: the model of
`sorted(..., reverse=True)` (keys are distinct under `WF`, so stability
is irrelevant). -/
def sortDesc (l : List Path) : List Path := l.foldr insertDesc []

/-- Does a file name end in `.md` (what `glob("*.md")` matches, given
that under `WF` no directory is named `*.md`)? -/
def endsMd (c : String) : Bool := ".md".data.isSuffixOf c.data

/-- Every `index.md` file of the tree: the model of
`output_path.rglob("index.md")` (under `WF` no directory is named
`index.md`, so only files match). -/
def indexPathsOf (fs : FS) : List Path :=
  (fs.map FSFile.path).filter (fun p => p.getLast? == some "index.md")

/-- The enumeration `sorted(self.output_path.rglob("index.md"), reverse=True)`. -/
def sortIndexPaths (fs : FS) : List Path := sortDesc (indexPathsOf fs)

/-- Does a file exist at path `p`? -/
def fileExists (fs : FS) (p : Path) : Bool := fs.any (fun f => f.path == p)

/-- Is `d` a directory of the tree, i.e. does some file lie strictly
below it? -/
def isDirOf (fs : FS) (d : Path) : Bool :=
  fs.any (fun f => d.isPrefixOf f.path && d.length < f.path.length)

/-- The markdown files directly inside directory `d`: the model of
`list(parent_dir.glob("*.md"))` (under `WF` only files can match). -/
def mdChildren (fs : FS) (d : Path) : List Path :=
  (fs.map FSFile.path).filter
    (fun p => p.dropLast == d && (match p.getLast? with
      | some n => endsMd n
      | none => false))

/-- Does `d` have a subdirectory that is not `__pycache__`?  The model of
`[p for p in parent_dir.iterdir() if p.is_dir() and p.name != "__pycache__"]`
being non-empty. -/
def hasSubdir (fs : FS) (d : Path) : Bool :=
  fs.any (fun f =>
    d.isPrefixOf f.path && d.length + 1 < f.path.length &&
      (f.path.get? d.length != some "__pycache__"))

/-- The collapse criterion of `_collapse_structure`:
`len(md_files) == 1 and md_files[0].name == "index.md" and not subdirs`. -/
def soloIndex (fs : FS) (d : Path) : Bool :=
  match mdChildren fs d with
  | [q] => (q.getLast? == some "index.md") && !hasSubdir fs d
  | _ => false

/-- Index of the last `'.'` of a character list, if any. -/
def lastDotIdx (cs : List Char) : Option Nat :=
  match cs with
  | [] => none
  | c :: rest =>
    match lastDotIdx rest with
    | some i => some (i + 1)
    | none => if c == '.' then some 0 else none

/-- `PurePath.with_suffix(".md")` applied to a single name: pathlib's
`suffix` is `name[i:]` for `i = name.rfind('.')` when `0 < i < len-1`;
`with_suffix` strips it (if any) and appends `.md`. -/
def withSuffixMd (c : String) : String :=
  match lastDotIdx c.data with
  | some i => if 0 < i ∧ i + 1 < c.data.length then ⟨c.data.take i ++ ".md".data⟩
              else ⟨c.data ++ ".md".data⟩
  | none => ⟨c.data ++ ".md".data⟩

/-- `parent_dir.with_suffix(".md")` for a directory `d ≠ []`:
the last component has its extension replaced by (or, when it has none,
extended with) `.md`. -/
def newPathOf (d : Path) : Path :=
  match d.getLast? with
  | some n => d.dropLast ++ [withSuffixMd n]
  | none => d

/-- `index_file.rename(new_path)`: POSIX rename silently replaces an
existing file at the destination, then the file at `old` now lives at
`new`.  (`parent_dir.rmdir()` needs no model step: directories are
implicit, and under `WF` the collapsed directory is emptied by the move.) -/
def doRename (fs : FS) (old new : Path) : FS :=
  (fs.filter (fun f => f.path ≠ new)).map
    (fun f => if f.path = old then ⟨new, f.content⟩ else f)

/-- State threaded through `_collapse_structure`: the output tree and the
`renamed_files` insertion-ordered mapping (kept as a list of
old-path/new-path pairs; the code stores their slash-joined strings,
which are in bijection with paths under `WF`). -/
structure CState where
  fs : FS
  renames : List (Path × Path)
  deriving DecidableEq, Repr

/-- One iteration of the loop of `_collapse_structure` at snapshot entry
`p` (an `index.md` path): skip the root, test the criterion, and on
success record the rename (the dict update precedes the move in the
code) and move the file. -/
def collapseStep (st : CState) (p : Path) : CState :=
  let d := p.dropLast
  if d = [] then st
  else if soloIndex st.fs d then
    { fs := doRename st.fs p (newPathOf d),
      renames := st.renames ++ [(p, newPathOf d)] }
  else st

/-- The loop of `_collapse_structure` over the (frozen) sorted snapshot. -/
def collapseList (st : CState) : List Path → CState
  | [] => st
  | p :: ps => collapseList (collapseStep st p) ps

/-- `_collapse_structure` run on a tree with an empty `renamed_files`. -/
def collapseRun (fs : FS) : CState :=
  collapseList ⟨fs, []⟩ (sortIndexPaths fs)

/-- The `renamed_files` dictionary as the code stores it: slash-joined
strings. -/
def renamesStr (st : CState) : List (String × String) :=
  st.renames.map (fun e => (pathStr e.1, pathStr e.2))

/-! ## Cross-Reference Rewriter (`_update_cross_references`) -/

/-- Is `pat` a substring of `s` (Python's `pat in s`)? -/
def substrL (pat : List Char) : List Char → Bool
  | [] => pat.isEmpty
  | c :: cs => pat.isPrefixOf (c :: cs) || substrL pat cs

/-- Left-to-right non-overlapping replacement of every occurrence, as
Python's `str.replace`; the fuel argument (instantiated with the string
length) only serves termination. -/
def replaceGo (pat rep : List Char) : Nat → List Char → List Char
  | _, [] => []
  | 0, s => s
  | fuel + 1, c :: cs =>
    if pat ≠ [] ∧ pat.isPrefixOf (c :: cs) then
      rep ++ replaceGo pat rep fuel ((c :: cs).drop pat.length)
    else c :: replaceGo pat rep fuel cs

/-- Python's `s.replace(pat, rep)` (for the non-empty patterns the
Rewriter uses). -/
def replaceS (s pat rep : String) : String :=
  if pat.data.isEmpty then s else ⟨replaceGo pat.data rep.data s.data.length s.data⟩

/-- Is `pat` a substring of `s`, on strings? -/
def substrS (pat s : String) : Bool := substrL pat.data s.data

/-- Python's `old_path[:-9]` (drop the last 9 characters). -/
def dropRight9 (s : String) : String := ⟨s.data.take (s.data.length - 9)⟩

/-- The three pattern/replacement pairs tried for one rename entry:
the exact old path, the old path without its trailing `/index.md`
(a fixed 9-character strip), and that directory form with a trailing
slash; each is replaced with the link syntax closed over the new path. -/
def patternsOf (old new : String) : List (String × String) :=
  [("](" ++ old ++ ")", "](" ++ new ++ ")"),
   ("](" ++ dropRight9 old ++ ")", "](" ++ new ++ ")"),
   ("](" ++ dropRight9 old ++ "/)", "](" ++ new ++ ")")]

/-- Apply one pattern to the evolving content, tracking the `updated`
flag: `if old_pattern in content: content = content.replace(...)`. -/
def applyPat (acc : String × Bool) (pr : String × String) : String × Bool :=
  if substrS pr.1 acc.1 then (replaceS acc.1 pr.1 pr.2, true) else acc

/-- Process one rename entry against the evolving content: try its three
patterns in order. -/
def rewriteEntry (acc : String × Bool) (e : String × String) : String × Bool :=
  (patternsOf e.1 e.2).foldl applyPat acc

/-- Rewrite one file's content against the whole rename map (entries in
insertion order), returning the new content and the `updated` flag. -/
def rewriteFile (rm : List (String × String)) (c : String) : String × Bool :=
  rm.foldl rewriteEntry (c, false)

/-- `_update_cross_references` over all markdown files: rewrite each file
(every file of the tree is markdown under `WF`), count the updated ones;
a file is written back only when its flag is set, otherwise its content
is untouched.  The code returns immediately when the map is empty. -/
def updateCrossRefs (rm : List (String × String)) (fs : FS) : FS × Nat :=
  if rm.isEmpty then (fs, 0)
  else
    (fs.map (fun f => ⟨f.path, (rewriteFile rm f.content).1⟩),
     (fs.filter (fun f => (rewriteFile rm f.content).2)).length)

/-! ## Failure models

`collapseStepMoveFails` is the state of `_collapse_structure` at the
moment `index_file.rename(new_path)` raises an I/O error: the code has
already executed `self.renamed_files[old_relative] = new_relative`
(the dict update precedes the move), so the entry is recorded while the
tree is unchanged. -/

/-- The collapse step with the file move failing: the rename entry is
recorded, the move does not happen. -/
def collapseStepMoveFails (st : CState) (p : Path) : CState :=
  let d := p.dropLast
  if d = [] then st
  else if soloIndex st.fs d then
    { fs := st.fs, renames := st.renames ++ [(p, newPathOf d)] }
  else st

/-! ## Page export (`_export_page_markdown`)

The exporter's control flow: the parent-directory creation
(`output_file.parent.mkdir(parents=True, exist_ok=True)`) runs *before*
the `try` block; reading the source and the atomic write run inside it,
with `except Exception` logging the error and falling through to the
next page.  Failures are environmental, so each page carries an outcome
oracle saying which operation (if any) raises.  Incremental skipping,
frontmatter composition, API tracking and the single-file accumulator
are orthogonal to claim C7 and are not modelled. -/

/-- Which I/O operation of `_export_page_markdown` raises for a page. -/
inductive PageOutcome where
  | allOk
  | mkdirRaises
  | readRaises
  | writeRaises
  deriving DecidableEq, Repr

/-- A page descriptor: destination path (already `.md`-suffixed) and the
markdown source text. -/
structure PageDesc where
  dest : Path
  src : String
  deriving DecidableEq, Repr

/-- Exporter state: the output tree, the directories created so far, and
the error/processed counters. -/
structure ExpSt where
  fs : FS
  dirsMade : List Path
  errorsLogged : Nat
  processed : Nat
  deriving DecidableEq, Repr

/-- Write (or overwrite) a file at `p`. -/
def writeFileAt (fs : FS) (p : Path) (c : String) : FS :=
  if fileExists fs p then
    fs.map (fun f => if f.path = p then ⟨p, c⟩ else f)
  else fs ++ [⟨p, c⟩]

/-- Export one page.  `Except.error` is an exception escaping
`_export_page_markdown` (nothing in the method catches it):
`mkdir` runs before the `try` block, so its failure aborts; read and
write failures are caught by `except Exception`, logged, and the page is
skipped. -/
def exportPage (st : ExpSt) (pg : PageDesc × PageOutcome) : Except Unit ExpSt :=
  match pg.2 with
  | .mkdirRaises => .error ()
  | .readRaises =>
    .ok { st with dirsMade := st.dirsMade ++ [pg.1.dest.dropLast],
                  errorsLogged := st.errorsLogged + 1 }
  | .writeRaises =>
    .ok { st with dirsMade := st.dirsMade ++ [pg.1.dest.dropLast],
                  errorsLogged := st.errorsLogged + 1 }
  | .allOk =>
    .ok { st with dirsMade := st.dirsMade ++ [pg.1.dest.dropLast],
                  fs := writeFileAt st.fs pg.1.dest pg.1.src,
                  processed := st.processed + 1 }

/-- The per-page export loop, as the host generator drives it: an
uncaught exception from one page aborts the remainder. -/
def exportAll (st : ExpSt) : List (PageDesc × PageOutcome) → Except Unit ExpSt
  | [] => .ok st
  | pg :: rest =>
    match exportPage st pg with
    | .error e => .error e
    | .ok st' => exportAll st' rest

/-! ## Well-formedness of export trees -/

/-- A legal path component: non-empty, slash-free, not a bytecode-cache
directory name. -/
def goodComp (c : String) : Prop := c ≠ "" ∧ '/' ∉ c.data ∧ c ≠ "__pycache__"

instance goodCompDec : DecidablePred goodComp := fun c => by
  unfold goodComp; infer_instance

/-- Well-formedness of an output tree as the Page Collector produces it:
distinct non-empty paths, legal components, every file named `*.md`, no
directory named `*.md`.  (Under these conditions `_collapse_structure`
never raises: `glob("*.md")` and `rglob("index.md")` match only files,
`rmdir` always sees an emptied directory, and `rename` never targets an
existing directory.) -/
def WF (fs : FS) : Prop :=
  (fs.map FSFile.path).Nodup ∧
  ∀ f ∈ fs, f.path ≠ [] ∧ (∀ c ∈ f.path, goodComp c) ∧
    endsMd (f.path.getLast?.getD "") = true ∧
    ∀ c ∈ f.path.dropLast, endsMd c = false

instance wfDec : DecidablePred WF := fun fs => by
  unfold WF; infer_instance

/-- Content contains no occurrence of any pattern derived from any
rename entry ("contains no link matching any RenameMap entry"). -/
def NoOcc (rm : List (String × String)) (c : String) : Prop :=
  ∀ e ∈ rm, ∀ pr ∈ patternsOf e.1 e.2, substrS pr.1 c = false

instance noOccDec (rm : List (String × String)) (c : String) :
    Decidable (NoOcc rm c) := by unfold NoOcc; infer_instance

/-- Spec vocabulary: `q` is a markdown file directly inside directory
`d` ("the set of markdown files directly in D"). -/
def MdChildP (fs : FS) (d q : Path) : Prop :=
  fileExists fs q = true ∧ q ≠ [] ∧ q.dropLast = d ∧
    endsMd (q.getLast?.getD "") = true

/-- Spec vocabulary: `d` has an immediate subdirectory named `c`,
bytecode-cache directories not counting. -/
def SubdirP (fs : FS) (d : Path) (c : String) : Prop :=
  isDirOf fs (d ++ [c]) = true ∧ c ≠ "__pycache__"

/-- Spec vocabulary for the collapse criterion: `d` contains exactly one
markdown file, that file is the index document, and `d` has zero
subdirectories (ignoring bytecode-cache directories). -/
def SoloSpec (fs : FS) (d : Path) : Prop :=
  MdChildP fs d (d ++ ["index.md"]) ∧
  (∀ q, MdChildP fs d q → q = d ++ ["index.md"]) ∧
  ∀ c, ¬ SubdirP fs d c

/-- Shape of every entry the Collapser ever records: the key is a
directory's index path, the value that directory's `with_suffix(".md")`
path. -/
def EntryShape (e : Path × Path) : Prop :=
  ∃ d : Path, d ≠ [] ∧ e.1 = d ++ ["index.md"] ∧ e.2 = newPathOf d

/-- Distinctness of the file paths of a tree (the part of `WF` the
collapse-run invariants need). -/
def pathsNodup (fs : FS) : Prop := (fs.map FSFile.path).Nodup

/-- No directory of the tree has a name that `with_suffix(".md")` maps to
the index filename (i.e. no directory is named `index` or `index.*`):
the side condition under which one collapse pass reaches a fixed point. -/
def NoIdxDir (fs : FS) : Prop :=
  ∀ f ∈ fs, ∀ c ∈ f.path.dropLast, withSuffixMd c ≠ "index.md"

instance noIdxDirDec : DecidablePred NoIdxDir := fun fs => by
  unfold NoIdxDir; infer_instance

/-- A directory is *blocked* from collapsing: it contains a markdown
file other than the index document, or it still has a (non-cache)
subdirectory.  Blockedness is stable under collapse steps. -/
def Blocked (fs : FS) (d : Path) : Prop :=
  (∃ q : Path, fileExists fs q = true ∧ q ≠ [] ∧ q.dropLast = d ∧
    endsMd (q.getLast?.getD "") = true ∧ q.getLast?.getD "" ≠ "index.md") ∨
  (∃ c, c ≠ "__pycache__" ∧ isDirOf fs (d ++ [c]) = true)

/-- Run invariant for idempotence: every index document of the current
tree either is still to be processed (in the remaining work list) or
lives in a directory that is blocked from collapsing. -/
def IndexInv (st : CState) (L : List Path) : Prop :=
  ∀ q : Path, fileExists st.fs q = true → q.getLast? = some "index.md" →
    q.dropLast ≠ [] → q ∈ L ∨ Blocked st.fs q.dropLast

/-- Entry `a` is processed strictly before entry `b` in the work list
(the loop of `_collapse_structure` walks the sorted snapshot in order). -/
def Before (l : List Path) (a b : Path) : Prop :=
  ∃ i j : Fin l.length, i.1 < j.1 ∧ l.get i = a ∧ l.get j = b

instance beforeDec (l : List Path) (a b : Path) : Decidable (Before l a b) := by
  unfold Before; infer_instance

/-- Invariant carried while the Collapser works through the entries that
precede `P/index/index.md`: the child's index is still present with its
content, the directory `P/index` still has no other content, and the
parent's index content `A` still lives only at `P/index.md`. -/
def ClobberInv (P : Path) (A B : String) (st : CState) : Prop :=
  fileExists st.fs (P ++ ["index", "index.md"]) = true ∧
  (∀ f ∈ st.fs, f.path = P ++ ["index", "index.md"] → f.content = B) ∧
  (∀ f ∈ st.fs, (P ++ ["index"]).isPrefixOf f.path = true →
    (P ++ ["index"]).length < f.path.length →
    f.path = P ++ ["index", "index.md"]) ∧
  (∀ f ∈ st.fs, f.content = A → f.path = P ++ ["index.md"])

/-! ### Rewriter lemmas -/

theorem applyPat_of_no_match {acc : String × Bool} {pr : String × String}
    (h : substrS pr.1 acc.1 = false) : applyPat acc pr = acc := by
  simp [applyPat, h]

theorem foldl_applyPat_no_match {c : String} {u : Bool}
    {prs : List (String × String)}
    (h : ∀ pr ∈ prs, substrS pr.1 c = false) :
    prs.foldl applyPat (c, u) = (c, u) := by
  induction prs with
  | nil => rfl
  | cons pr rest ih =>
    have h1 : applyPat (c, u) pr = (c, u) :=
      applyPat_of_no_match (h pr (List.mem_cons_self pr rest))
    simp only [List.foldl_cons, h1]
    exact ih (fun q hq => h q (List.mem_cons_of_mem pr hq))

theorem rewriteFile_of_noOcc {rm : List (String × String)} {c : String}
    (h : NoOcc rm c) : rewriteFile rm c = (c, false) := by
  unfold rewriteFile
  induction rm with
  | nil => rfl
  | cons e rest ih =>
    have h1 : rewriteEntry (c, false) e = (c, false) :=
      foldl_applyPat_no_match (h e (List.mem_cons_self e rest))
    simp only [List.foldl_cons, h1]
    exact ih (fun e' he' pr hpr => h e' (List.mem_cons_of_mem e he') pr hpr)

theorem applyPat_sticky {acc : String × Bool} {pr : String × String}
    (h : acc.2 = true) : (applyPat acc pr).2 = true := by
  unfold applyPat
  split
  · rfl
  · exact h

theorem foldl_applyPat_sticky {acc : String × Bool}
    {prs : List (String × String)} (h : acc.2 = true) :
    (prs.foldl applyPat acc).2 = true := by
  induction prs generalizing acc with
  | nil => exact h
  | cons pr rest ih => exact ih (applyPat_sticky h)

theorem foldl_applyPat_of_flag_false {acc : String × Bool}
    {prs : List (String × String)}
    (h : (prs.foldl applyPat acc).2 = false) :
    prs.foldl applyPat acc = acc := by
  induction prs generalizing acc with
  | nil => rfl
  | cons pr rest ih =>
    simp only [List.foldl_cons] at h ⊢
    cases hm : substrS pr.1 acc.1 with
    | false =>
      rw [applyPat_of_no_match hm] at h ⊢
      exact ih h
    | true =>
      exfalso
      have hstep : applyPat acc pr = (replaceS acc.1 pr.1 pr.2, true) := by
        simp [applyPat, hm]
      rw [hstep] at h
      rw [@foldl_applyPat_sticky (replaceS acc.1 pr.1 pr.2, true) rest rfl] at h
      simp at h

theorem rewriteEntry_sticky {acc : String × Bool} {e : String × String}
    (h : acc.2 = true) : (rewriteEntry acc e).2 = true :=
  foldl_applyPat_sticky h

theorem foldl_rewriteEntry_sticky {acc : String × Bool}
    {rm : List (String × String)} (h : acc.2 = true) :
    (rm.foldl rewriteEntry acc).2 = true := by
  induction rm generalizing acc with
  | nil => exact h
  | cons e rest ih => exact ih (rewriteEntry_sticky h)

theorem foldl_rewriteEntry_of_flag_false (rm : List (String × String)) :
    ∀ (acc : String × Bool), (rm.foldl rewriteEntry acc).2 = false →
      rm.foldl rewriteEntry acc = acc := by
  induction rm with
  | nil => intro _ _; rfl
  | cons e rest ih =>
    intro acc hf
    simp only [List.foldl_cons] at hf ⊢
    have h2 : (rewriteEntry acc e).2 = false := by
      cases hb : (rewriteEntry acc e).2
      · rfl
      · rw [foldl_rewriteEntry_sticky hb] at hf; exact hf
    have hstep : rewriteEntry acc e = acc := foldl_applyPat_of_flag_false h2
    rw [hstep] at hf ⊢
    exact ih acc hf

theorem rewriteFile_of_flag_false {rm : List (String × String)} {c : String}
    (h : (rewriteFile rm c).2 = false) : (rewriteFile rm c).1 = c := by
  unfold rewriteFile at h ⊢
  rw [foldl_rewriteEntry_of_flag_false rm (c, false) h]

/-! ### Basic facts about the tree model -/

theorem fileExists_iff {fs : FS} {q : Path} :
    fileExists fs q = true ↔ ∃ f ∈ fs, f.path = q := by
  simp [fileExists, List.any_eq_true]

theorem getLast?_isSome_of_ne_nil {q : Path} (h : q ≠ []) :
    q.getLast? = some (q.getLast h) := List.getLast?_eq_getLast q h

theorem eq_dropLast_concat_of_ne_nil {q : Path} (h : q ≠ []) :
    q = q.dropLast ++ [q.getLast?.getD ""] := by
  rw [getLast?_isSome_of_ne_nil h]
  exact (List.dropLast_append_getLast h).symm

theorem mem_mdChildren {fs : FS} {d q : Path} :
    q ∈ mdChildren fs d ↔ MdChildP fs d q := by
  unfold mdChildren MdChildP
  rw [List.mem_filter]
  constructor
  · rintro ⟨hmem, hpred⟩
    have hex : fileExists fs q = true := by
      rw [fileExists_iff]
      obtain ⟨f, hf, hfq⟩ := List.mem_map.mp hmem
      exact ⟨f, hf, hfq⟩
    rw [Bool.and_eq_true] at hpred
    obtain ⟨hdl, hmatch⟩ := hpred
    cases hq : q.getLast? with
    | none =>
      rw [hq] at hmatch
      exact absurd hmatch (by simp)
    | some n =>
      rw [hq] at hmatch
      refine ⟨hex, ?_, by simpa using hdl, ?_⟩
      · intro hnil
        rw [hnil] at hq
        simp at hq
      · simpa using hmatch
  · rintro ⟨hex, hne, hdl, hlast⟩
    refine ⟨?_, ?_⟩
    · obtain ⟨f, hf, hfq⟩ := fileExists_iff.mp hex
      exact List.mem_map.mpr ⟨f, hf, hfq⟩
    · rw [Bool.and_eq_true]
      refine ⟨by simpa using hdl, ?_⟩
      rw [getLast?_isSome_of_ne_nil hne]
      rw [getLast?_isSome_of_ne_nil hne] at hlast
      simpa using hlast

theorem nodup_mdChildren {fs : FS} (hwf : WF fs) (d : Path) :
    (mdChildren fs d).Nodup := (hwf.1).filter _

theorem prefix_snoc_get {d l : Path} (hpre : d.isPrefixOf l = true)
    (hlt : d.length < l.length) :
    ∃ c, (d ++ [c]).isPrefixOf l = true ∧ l.get? d.length = some c := by
  rw [List.isPrefixOf_iff_prefix] at hpre
  obtain ⟨t, ht⟩ := hpre
  have htne : t ≠ [] := by
    intro h0
    rw [h0, List.append_nil] at ht
    rw [ht] at hlt
    exact lt_irrefl _ hlt
  obtain ⟨c, t', rfl⟩ := List.exists_cons_of_ne_nil htne
  refine ⟨c, ?_, ?_⟩
  · rw [List.isPrefixOf_iff_prefix]
    refine ⟨t', ?_⟩
    rw [← ht]
    simp
  · rw [← ht, List.get?_append_right (le_refl d.length)]
    simp

theorem of_snoc_prefix {d l : Path} {c : String}
    (h : (d ++ [c]).isPrefixOf l = true) :
    d.isPrefixOf l = true ∧ l.get? d.length = some c ∧
      d.length + 1 ≤ l.length := by
  rw [List.isPrefixOf_iff_prefix] at h
  obtain ⟨t, ht⟩ := h
  refine ⟨?_, ?_, ?_⟩
  · rw [List.isPrefixOf_iff_prefix]
    refine ⟨c :: t, ?_⟩
    rw [← ht]
    simp
  · rw [← ht, List.append_assoc, List.get?_append_right (le_refl d.length)]
    simp
  · rw [← ht]
    simp

theorem hasSubdir_iff {fs : FS} {d : Path} :
    hasSubdir fs d = true ↔
      ∃ c, c ≠ "__pycache__" ∧ isDirOf fs (d ++ [c]) = true := by
  unfold hasSubdir isDirOf
  rw [List.any_eq_true]
  constructor
  · rintro ⟨f, hf, hcond⟩
    rw [Bool.and_eq_true, Bool.and_eq_true] at hcond
    obtain ⟨⟨hpre, hlen⟩, hpyc⟩ := hcond
    have hlen' : d.length + 1 < f.path.length := of_decide_eq_true hlen
    obtain ⟨c, hcp, hcget⟩ := prefix_snoc_get hpre (Nat.lt_of_succ_lt hlen')
    refine ⟨c, ?_, ?_⟩
    · intro hceq
      rw [hceq] at hcget
      rw [hcget] at hpyc
      simp at hpyc
    · rw [List.any_eq_true]
      refine ⟨f, hf, ?_⟩
      rw [Bool.and_eq_true]
      refine ⟨hcp, ?_⟩
      simp only [List.length_append, List.length_singleton]
      exact decide_eq_true (by omega)
  · rintro ⟨c, hcne, hdir⟩
    rw [List.any_eq_true] at hdir
    obtain ⟨f, hf, hcond⟩ := hdir
    rw [Bool.and_eq_true] at hcond
    obtain ⟨hcp, hclen⟩ := hcond
    obtain ⟨hpre, hget, hlen⟩ := of_snoc_prefix hcp
    have hclen' : (d ++ [c]).length < f.path.length := of_decide_eq_true hclen
    simp only [List.length_append, List.length_singleton] at hclen'
    refine ⟨f, hf, ?_⟩
    rw [Bool.and_eq_true, Bool.and_eq_true]
    refine ⟨⟨hpre, decide_eq_true (by omega)⟩, ?_⟩
    rw [hget]
    simp [hcne]

/-! ### Sorting lemmas -/

theorem mem_insertDesc {p a : Path} {l : List Path} :
    a ∈ insertDesc p l ↔ a = p ∨ a ∈ l := by
  induction l with
  | nil => simp [insertDesc]
  | cons q t ih =>
    unfold insertDesc
    cases h : pathLt q p with
    | true =>
      simp only [if_true]
      simp
    | false =>
      simp only [Bool.false_eq_true, if_false, List.mem_cons, ih]
      tauto

theorem mem_sortDesc {l : List Path} {a : Path} :
    a ∈ sortDesc l ↔ a ∈ l := by
  induction l with
  | nil => simp [sortDesc]
  | cons p t ih =>
    unfold sortDesc at ih ⊢
    simp only [List.foldr_cons]
    rw [mem_insertDesc]
    simp [ih]

theorem mem_sortIndexPaths_getLast {fs : FS} {p : Path}
    (hp : p ∈ sortIndexPaths fs) : p.getLast? = some "index.md" := by
  unfold sortIndexPaths at hp
  rw [mem_sortDesc] at hp
  unfold indexPathsOf at hp
  have := (List.mem_filter.mp hp).2
  simpa using this

theorem mem_sortIndexPaths_iff {fs : FS} {p : Path} :
    p ∈ sortIndexPaths fs ↔
      fileExists fs p = true ∧ p.getLast? = some "index.md" := by
  unfold sortIndexPaths indexPathsOf
  rw [mem_sortDesc, List.mem_filter, fileExists_iff]
  simp [List.mem_map]

/-! ### Path-string lemmas -/

theorem pathChars_append (a b : Path) (ha : a ≠ []) (hb : b ≠ []) :
    pathChars (a ++ b) = pathChars a ++ '/' :: pathChars b := by
  induction a with
  | nil => exact absurd rfl ha
  | cons x xs ih =>
    cases xs with
    | nil =>
      cases b with
      | nil => exact absurd rfl hb
      | cons y ys => simp [pathChars]
    | cons x' xs' =>
      have hrec := ih (by simp)
      show pathChars (x :: ((x' :: xs') ++ b)) =
        (x.data ++ '/' :: pathChars (x' :: xs')) ++ '/' :: pathChars b
      have hcons : (x' :: xs') ++ b = x' :: (xs' ++ b) := rfl
      cases hxb : (x' :: xs') ++ b with
      | nil => exact absurd hxb (by simp)
      | cons z zs =>
        rw [← hxb]
        show x.data ++ '/' :: pathChars ((x' :: xs') ++ b) = _
        rw [hrec]
        simp

theorem pathStr_concat {d : Path} (hd : d ≠ []) (n : String) :
    pathStr (d ++ [n]) = pathStr d ++ "/" ++ n := by
  apply String.ext
  show pathChars (d ++ [n]) = ((pathStr d ++ "/") ++ n).data
  rw [String.data_append, String.data_append]
  show pathChars (d ++ [n]) = (pathChars d ++ "/".data) ++ n.data
  rw [pathChars_append d [n] hd (by simp)]
  show pathChars d ++ '/' :: pathChars [n] = _
  have h1 : pathChars [n] = n.data := rfl
  have h2 : ("/" : String).data = ['/'] := rfl
  rw [h1, h2]
  simp

theorem dropRight9_pathStr_concat {d : Path} (hd : d ≠ []) :
    dropRight9 (pathStr (d ++ ["index.md"])) = pathStr d := by
  apply String.ext
  show ((pathStr (d ++ ["index.md"])).data.take
    ((pathStr (d ++ ["index.md"])).data.length - 9)) = (pathStr d).data
  show ((pathChars (d ++ ["index.md"])).take
    ((pathChars (d ++ ["index.md"])).length - 9)) = pathChars d
  rw [pathChars_append d ["index.md"] hd (by simp)]
  have h1 : pathChars ["index.md"] = "index.md".data := rfl
  rw [h1]
  have h2 : ('/' :: "index.md".data).length = 9 := by decide
  have h3 : (pathChars d ++ '/' :: "index.md".data).length - 9 =
      (pathChars d).length := by
    rw [List.length_append, h2]
    omega
  rw [h3]
  exact List.take_left' rfl

/-! ### Shape of recorded rename entries -/

theorem collapseList_renames_shape (L : List Path)
    (hL : ∀ p ∈ L, p.getLast? = some "index.md") :
    ∀ st : CState, (∀ e ∈ st.renames, EntryShape e) →
      ∀ e ∈ (collapseList st L).renames, EntryShape e := by
  induction L with
  | nil => intro st h e he; exact h e he
  | cons p ps ih =>
    intro st h e he
    refine ih (fun q hq => hL q (List.mem_cons_of_mem p hq))
      (collapseStep st p) ?_ e he
    intro e' he'
    unfold collapseStep at he'
    by_cases hd : p.dropLast = []
    · rw [if_pos hd] at he'
      exact h e' he'
    · rw [if_neg hd] at he'
      by_cases hs : soloIndex st.fs p.dropLast = true
      · rw [if_pos hs] at he'
        rcases List.mem_append.mp he' with h1 | h2
        · exact h e' h1
        · have he2 : e' = (p, newPathOf p.dropLast) := by simpa using h2
          subst he2
          refine ⟨p.dropLast, hd, ?_, rfl⟩
          have hplast := hL p (List.mem_cons_self p ps)
          have hpne : p ≠ [] := by
            intro h0
            rw [h0] at hplast
            simp at hplast
          have hq := eq_dropLast_concat_of_ne_nil hpne
          rw [hplast] at hq
          simpa using hq
      · rw [if_neg hs] at he'
        exact h e' he'

end MdExport

open MdExport

/-! ## Claim theorems: closed counterexamples and failure evaluations -/

/-- C1 counterexample: the claim computes the collapsed path as the
directory's path with `.md` *appended*; for the solo-index directory
`v1.2` the code's `with_suffix(".md")` instead *replaces* the `.2`
extension, so the collapse lands at `v1.md`, not `v1.2.md`, and the
rename is recorded accordingly. -/
theorem C1_counterexample :
    renamesStr (collapseRun [⟨["v1.2", "index.md"], "doc"⟩]) =
      [("v1.2/index.md", "v1.md")] ∧
    fileExists (collapseRun [⟨["v1.2", "index.md"], "doc"⟩]).fs ["v1.md"] = true ∧
    fileExists (collapseRun [⟨["v1.2", "index.md"], "doc"⟩]).fs ["v1.2.md"] = false ∧
    ("v1.md" : String) ≠ "v1.2.md" := by decide

/-- C2 counterexample: (a) with `a/index.md` and `a/b/index.md` the
reverse-lexicographic enumeration places the *parent's* index first
(`"a/index.md" > "a/b/index.md"` since `'i' > 'b'`), so the child is
neither processed nor removed before the parent is examined; (b) for the
tree `a/index/index.md`, collapsing the child deposits `a/index.md`,
making `a` a solo-index directory, but its index was not in the
enumeration snapshot, so the single pass leaves a still-collapsible
directory behind — a second pass would be required. -/
theorem C2_counterexample :
    sortIndexPaths
        [⟨["a", "index.md"], "P"⟩, ⟨["a", "b", "index.md"], "C"⟩] =
      [["a", "index.md"], ["a", "b", "index.md"]] ∧
    (collapseRun [⟨["a", "index", "index.md"], "B"⟩]).fs =
      [⟨["a", "index.md"], "B"⟩] ∧
    soloIndex (collapseRun [⟨["a", "index", "index.md"], "B"⟩]).fs ["a"] = true := by
  decide

/-- C3 counterexample: with the RenameMap
`{"x/index.z/index.md": "x/index.md", "x/index.md": "x.md"}` (exactly
what the Collapser records for the tree `x/index.md` +
`x/index.z/index.md`: `with_suffix` maps the directory name `index.z`
onto the parent's `index.md`, which then collapses in turn), the link
`[y](x/index.z)` matches only the first entry's directory-form pattern,
whose corresponding new path is `x/index.md` — yet the Rewriter leaves
`[y](x.md)`, because the second entry rewrites the freshly substituted
target again. -/
theorem C3_counterexample :
    rewriteFile
        [("x/index.z/index.md", "x/index.md"), ("x/index.md", "x.md")]
        "[y](x/index.z)" = ("[y](x.md)", true) ∧
    renamesStr (collapseRun
        [⟨["x", "index.md"], "A"⟩, ⟨["x", "index.z", "index.md"], "B"⟩]) =
      [("x/index.z/index.md", "x/index.md"), ("x/index.md", "x.md")] ∧
    ("[y](x.md)" : String) ≠ "[y](x/index.md)" := by decide

/-- C4 counterexample: on the tree `a/index/index.md` the first pass
collapses the child to `a/index.md` and stops; the second pass finds the
now solo-index directory `a`, collapses it to `a.md`, and records a
non-empty RenameMap — so running the Collapser twice is not a no-op. -/
theorem C4_counterexample :
    (collapseRun (collapseRun [⟨["a", "index", "index.md"], "B"⟩]).fs).renames ≠
      [] ∧
    (collapseRun (collapseRun [⟨["a", "index", "index.md"], "B"⟩]).fs).fs ≠
      (collapseRun [⟨["a", "index", "index.md"], "B"⟩]).fs := by decide

/-- C5 counterexample: for the tree `x/index.md` + `x/index.z/index.md`
the Collapser first moves `x/index.z/index.md` onto `x/index.md`
(`with_suffix(".md")` maps the name `index.z` to `index.md`), recording
that path as a *value*, then collapses `x` itself, moving `x/index.md`
away to `x.md`; the finished RenameMap therefore contains the value
`x/index.md`, a path at which no file exists in the final tree. -/
theorem C5_counterexample :
    (collapseRun [⟨["x", "index.md"], "A"⟩,
        ⟨["x", "index.z", "index.md"], "B"⟩]).renames =
      [(["x", "index.z", "index.md"], ["x", "index.md"]),
       (["x", "index.md"], ["x.md"])] ∧
    fileExists (collapseRun [⟨["x", "index.md"], "A"⟩,
        ⟨["x", "index.z", "index.md"], "B"⟩]).fs ["x", "index.md"] =
      false := by
  decide

/-- C6 failing evaluation: the code records the rename in
`renamed_files` *before* attempting `index_file.rename(new_path)`; if the
move raises (e.g. a permission error), the map already holds the entry
while the tree is unchanged — the move and the record did not happen
together. -/
theorem C6_move_failure_evaluation :
    (collapseStepMoveFails ⟨[⟨["roadmap", "index.md"], "R"⟩], []⟩
        ["roadmap", "index.md"]).renames =
      [(["roadmap", "index.md"], ["roadmap.md"])] ∧
    (collapseStepMoveFails ⟨[⟨["roadmap", "index.md"], "R"⟩], []⟩
        ["roadmap", "index.md"]).fs = [⟨["roadmap", "index.md"], "R"⟩] := by
  decide

/-- C7 failing evaluation: `output_file.parent.mkdir(...)` runs *before*
the `try` block of `_export_page_markdown`, so a directory-creation
failure (e.g. a permission error on one page's subtree) propagates and
aborts the whole export — the second page is never exported.  A read
failure, by contrast, is caught by the `except` handler: it is logged
and the loop continues, exporting the second page. -/
theorem C7_abort_evaluation :
    exportAll ⟨[], [], 0, 0⟩
        [(⟨["guide", "overview.md"], "G"⟩, .mkdirRaises),
         (⟨["intro.md"], "I"⟩, .allOk)] = .error () ∧
    exportAll ⟨[], [], 0, 0⟩
        [(⟨["guide", "overview.md"], "G"⟩, .readRaises),
         (⟨["intro.md"], "I"⟩, .allOk)] =
      .ok ⟨[⟨["intro.md"], "I"⟩], [["guide"], []], 1, 1⟩ :=
  ⟨rfl, rfl⟩

/-- C8: a markdown file whose content contains no occurrence of any
pattern derived from any RenameMap entry is left byte-identical by the
Cross-Reference Rewriter — its per-file result is its own content with
the `updated` flag unset, it reappears unchanged in the output tree, it
is not among the files counted as updated — and in general a file whose
flag is unset is one in which no replacement occurred, so its content is
returned unchanged (files are written back only when flagged). -/
theorem C8_no_spurious_writes (rm : List (String × String)) (fs : FS)
    (f : FSFile) (hf : f ∈ fs) (hno : NoOcc rm f.content) :
    rewriteFile rm f.content = (f.content, false) ∧
    f ∈ (updateCrossRefs rm fs).1 ∧
    f ∉ fs.filter (fun g => (rewriteFile rm g.content).2) ∧
    (updateCrossRefs rm fs).2 =
      (fs.filter (fun g => (rewriteFile rm g.content).2)).length ∧
    ∀ (rm' : List (String × String)) (c : String),
      (rewriteFile rm' c).2 = false → (rewriteFile rm' c).1 = c := by
  have h1 : rewriteFile rm f.content = (f.content, false) :=
    rewriteFile_of_noOcc hno
  refine ⟨h1, ?_, ?_, ?_, fun _ _ h => rewriteFile_of_flag_false h⟩
  · unfold updateCrossRefs
    by_cases hrm : rm.isEmpty
    · simp [hrm, hf]
    · simp only [hrm, if_false]
      exact List.mem_map.mpr ⟨f, hf, by rw [h1]⟩
  · intro hmem
    have := (List.mem_filter.mp hmem).2
    rw [h1] at this
    exact Bool.false_ne_true this
  · unfold updateCrossRefs
    by_cases hrm : rm.isEmpty
    · have hempty : rm = [] := List.isEmpty_iff.mp hrm
      subst hempty
      simp only [List.isEmpty_nil, if_true]
      have : fs.filter (fun g => (rewriteFile [] g.content).2) = [] := by
        apply List.filter_eq_nil_iff.mpr
        intro g _
        simp [rewriteFile]
      rw [this]
      rfl
    · simp [hrm]

/-- C8 witness: a concrete tree and map where the single file matches no
entry. -/
theorem C8_no_spurious_writes_witness :
    (⟨["index.md"], "[z](other.md)"⟩ : FSFile) ∈
        ([⟨["index.md"], "[z](other.md)"⟩] : FS) ∧
    NoOcc [("roadmap/index.md", "roadmap.md")] "[z](other.md)" ∧
    (rewriteFile [("roadmap/index.md", "roadmap.md")] "[z](other.md)" =
        ("[z](other.md)", false) ∧
      (⟨["index.md"], "[z](other.md)"⟩ : FSFile) ∈
        (updateCrossRefs [("roadmap/index.md", "roadmap.md")]
          [⟨["index.md"], "[z](other.md)"⟩]).1 ∧
      (⟨["index.md"], "[z](other.md)"⟩ : FSFile) ∉
        List.filter (fun (g : FSFile) => (rewriteFile
          [("roadmap/index.md", "roadmap.md")] g.content).2)
          ([⟨["index.md"], "[z](other.md)"⟩] : FS) ∧
      (updateCrossRefs [("roadmap/index.md", "roadmap.md")]
          [⟨["index.md"], "[z](other.md)"⟩]).2 =
        (List.filter (fun (g : FSFile) => (rewriteFile
          [("roadmap/index.md", "roadmap.md")] g.content).2)
          ([⟨["index.md"], "[z](other.md)"⟩] : FS)).length ∧
      ∀ (rm' : List (String × String)) (c : String),
        (rewriteFile rm' c).2 = false → (rewriteFile rm' c).1 = c) :=
  ⟨by decide, by decide,
    C8_no_spurious_writes [("roadmap/index.md", "roadmap.md")]
      [⟨["index.md"], "[z](other.md)"⟩] ⟨["index.md"], "[z](other.md)"⟩
      (by decide) (by decide)⟩

/-- C3 amended: the Rewriter applies the rename entries in insertion
order against the evolving content, so a link matching an earlier entry
can be rewritten again by a later entry whose old path equals the
earlier entry's new path (chained collapses); a file containing no
occurrence of any entry's patterns is left unchanged and unflagged; in
particular, with RenameMap `{"roadmap/index.md": "roadmap.md"}` a file
containing `[x](roadmap/index.md)`, `[y](roadmap/)` and `[z](other.md)`
afterwards contains `[x](roadmap.md)`, `[y](roadmap.md)` and unchanged
`[z](other.md)`. -/
theorem C3_amended :
    rewriteFile [("roadmap/index.md", "roadmap.md")]
        "[x](roadmap/index.md) [y](roadmap/) [z](other.md)" =
      ("[x](roadmap.md) [y](roadmap.md) [z](other.md)", true) ∧
    ∀ (rm : List (String × String)) (c : String), NoOcc rm c →
      rewriteFile rm c = (c, false) :=
  ⟨by decide, fun _ _ h => rewriteFile_of_noOcc h⟩

/-- C3 amended witness: the frame part applied at a concrete input. -/
theorem C3_amended_witness :
    NoOcc [("roadmap/index.md", "roadmap.md")] "[q](elsewhere.md)" ∧
    rewriteFile [("roadmap/index.md", "roadmap.md")] "[q](elsewhere.md)" =
      ("[q](elsewhere.md)", false) :=
  ⟨by decide, C3_amended.2 [("roadmap/index.md", "roadmap.md")]
    "[q](elsewhere.md)" (by decide)⟩

/-- C10 counterexample: for the solo-index directory `v2.7` the recorded
key is `v2.7/index.md` but the value is `v2.md` — not the key with its
trailing `/index.md` replaced by `.md` (which would be `v2.7.md`),
because `with_suffix` also eats the directory name's own extension. -/
theorem C10_counterexample :
    renamesStr (collapseRun [⟨["v2.7", "index.md"], "d"⟩]) =
      [("v2.7/index.md", "v2.md")] ∧
    ("v2.md" : String) ≠ "v2.7.md" := by decide

-- sanity checks on concrete trees (the §8 scenario of the spec)
example :
    (MdExport.collapseRun
        [⟨["roadmap", "index.md"], "# Roadmap"⟩,
         ⟨["index.md"], "See [Roadmap](roadmap/index.md)"⟩]).fs =
      [⟨["roadmap.md"], "# Roadmap"⟩,
       ⟨["index.md"], "See [Roadmap](roadmap/index.md)"⟩] := by decide

example :
    (MdExport.renamesStr
      (MdExport.collapseRun
        [⟨["roadmap", "index.md"], "# Roadmap"⟩,
         ⟨["index.md"], "x"⟩])) = [("roadmap/index.md", "roadmap.md")] := by
  decide

-- the three-level chain of §8: a/b/c/index.md collapses to a/b/c.md only
example :
    (MdExport.renamesStr
      (MdExport.collapseRun [⟨["a", "b", "c", "index.md"], "X"⟩])) =
      [("a/b/c/index.md", "a/b/c.md")] := by decide

-- with_suffix replaces an existing extension of the directory name
example : MdExport.withSuffixMd "v1.2" = "v1.md" := by decide
example : MdExport.withSuffixMd "index" = "index.md" := by decide

-- the §8 rewrite example
example :
    MdExport.rewriteFile [("roadmap/index.md", "roadmap.md")]
      "[x](roadmap/index.md) [y](roadmap/) [z](other.md)" =
      ("[x](roadmap.md) [y](roadmap.md) [z](other.md)", true) := by decide

example :
    MdExport.rewriteFile [("roadmap/index.md", "roadmap.md")] "[z](other.md)" =
      ("[z](other.md)", false) := by decide

theorem singleton_of_nodup_forall {α : Type} {l : List α} {a : α}
    (hnd : l.Nodup) (ha : a ∈ l) (hall : ∀ b ∈ l, b = a) : l = [a] := by
  cases l with
  | nil => cases ha
  | cons x t =>
    have hx : x = a := hall x (List.mem_cons_self x t)
    subst hx
    cases t with
    | nil => rfl
    | cons y s =>
      have hy : y = x := hall y (by simp)
      rw [List.nodup_cons] at hnd
      refine absurd ?_ hnd.1
      rw [← hy]
      simp

theorem soloIndex_iff_spec {fs : FS} (hwf : WF fs) (d : Path) :
    soloIndex fs d = true ↔ SoloSpec fs d := by
  unfold soloIndex
  constructor
  · intro h
    cases hm : mdChildren fs d with
    | nil => rw [hm] at h; simp at h
    | cons q qs =>
      cases qs with
      | cons q2 qs2 => rw [hm] at h; simp at h
      | nil =>
        rw [hm] at h
        rw [Bool.and_eq_true] at h
        obtain ⟨hq, hns⟩ := h
        have hqmem : q ∈ mdChildren fs d := by rw [hm]; simp
        have hmc := mem_mdChildren.mp hqmem
        have hqlast : q.getLast? = some "index.md" := by simpa using hq
        have hqe : q = d ++ ["index.md"] := by
          have h1 := eq_dropLast_concat_of_ne_nil hmc.2.1
          rw [hqlast] at h1
          rw [hmc.2.2.1] at h1
          simpa using h1
        refine ⟨?_, ?_, ?_⟩
        · rw [← hqe]; exact hmc
        · intro q' hq'
          have hmem' : q' ∈ mdChildren fs d := mem_mdChildren.mpr hq'
          rw [hm] at hmem'
          have : q' = q := by simpa using hmem'
          rw [this, hqe]
        · intro c hc
          obtain ⟨hdir, hcn⟩ := hc
          have hh : hasSubdir fs d = true := hasSubdir_iff.mpr ⟨c, hcn, hdir⟩
          rw [hh] at hns
          simp at hns
  · rintro ⟨h1, h2, h3⟩
    have hmem : d ++ ["index.md"] ∈ mdChildren fs d := mem_mdChildren.mpr h1
    have hall : ∀ b ∈ mdChildren fs d, b = d ++ ["index.md"] :=
      fun b hb => h2 b (mem_mdChildren.mp hb)
    have heq : mdChildren fs d = [d ++ ["index.md"]] :=
      singleton_of_nodup_forall (nodup_mdChildren hwf d) hmem hall
    rw [heq]
    rw [Bool.and_eq_true]
    constructor
    · simp
    · cases hhs : hasSubdir fs d
      · simp
      · obtain ⟨c, hcn, hdir⟩ := hasSubdir_iff.mp hhs
        exact absurd ⟨hdir, hcn⟩ (h3 c)

/-- C1 amended: a directory examined by the Collapser is collapsed if and
only if it is not the output root, it contains exactly one markdown file,
that file is the index document, and it has zero subdirectories (ignoring
bytecode-cache directories); when collapsed, the new path is the
directory's own path with its name's extension *replaced* by the markdown
extension (appended only when the name has no extension —
`Path.with_suffix(".md")` semantics, not plain appending), the rename
old-index-path to new-path is appended to the RenameMap, and the index
file is moved (replacing any file already at the new path); otherwise the
directory, the tree and the RenameMap are left untouched. -/
theorem C1_amended (st : CState) (p : Path) (hwf : WF st.fs) :
    (¬ (p.dropLast ≠ [] ∧ SoloSpec st.fs p.dropLast) →
      collapseStep st p = st) ∧
    ((p.dropLast ≠ [] ∧ SoloSpec st.fs p.dropLast) →
      (collapseStep st p).fs = doRename st.fs p (newPathOf p.dropLast) ∧
      (collapseStep st p).renames =
        st.renames ++ [(p, newPathOf p.dropLast)]) := by
  constructor
  · intro hn
    unfold collapseStep
    by_cases hd : p.dropLast = []
    · rw [if_pos hd]
    · rw [if_neg hd]
      have hn19 : ¬ SoloSpec st.fs p.dropLast := fun hs => hn ⟨hd, hs⟩
      have hb : soloIndex st.fs p.dropLast = false := by
        cases hb : soloIndex st.fs p.dropLast
        · rfl
        · exact absurd ((soloIndex_iff_spec hwf _).mp hb) hn19
      rw [hb]
      simp
  · rintro ⟨hd, hs⟩
    unfold collapseStep
    rw [if_neg hd, if_pos ((soloIndex_iff_spec hwf _).mpr hs)]
    exact ⟨rfl, rfl⟩

/-- C1 amended witness: the spec-§8 `roadmap` directory collapses. -/
theorem C1_amended_witness :
    WF [⟨["roadmap", "index.md"], "r"⟩] ∧
    ((["roadmap", "index.md"] : Path).dropLast ≠ [] ∧
      SoloSpec [⟨["roadmap", "index.md"], "r"⟩]
        (["roadmap", "index.md"] : Path).dropLast) ∧
    (collapseStep ⟨[⟨["roadmap", "index.md"], "r"⟩], []⟩
        ["roadmap", "index.md"]).fs =
      doRename [⟨["roadmap", "index.md"], "r"⟩] ["roadmap", "index.md"]
        (newPathOf (["roadmap", "index.md"] : Path).dropLast) ∧
    (collapseStep ⟨[⟨["roadmap", "index.md"], "r"⟩], []⟩
        ["roadmap", "index.md"]).renames =
      [] ++ [((["roadmap", "index.md"] : Path),
        newPathOf (["roadmap", "index.md"] : Path).dropLast)] := by
  have hwf : WF [⟨["roadmap", "index.md"], "r"⟩] := by decide
  have hs : SoloSpec [⟨["roadmap", "index.md"], "r"⟩]
      (["roadmap", "index.md"] : Path).dropLast :=
    (soloIndex_iff_spec hwf _).mp (by decide)
  have hd : (["roadmap", "index.md"] : Path).dropLast ≠ [] := by decide
  have hc := (C1_amended ⟨[⟨["roadmap", "index.md"], "r"⟩], []⟩
    ["roadmap", "index.md"] hwf).2 ⟨hd, hs⟩
  exact ⟨hwf, ⟨hd, hs⟩, hc.1, hc.2⟩

/-- C10 amended: every entry the Collapser records has a key of the form
`D/index.md` (so its string form ends in the 9-character suffix
`/index.md`, and the Rewriter's fixed 9-character strip always yields
exactly the collapsed directory's relative path), and a value equal to
`D.with_suffix(".md")` — the key's directory with its name's extension
replaced by `.md` (appended when the name has none), which coincides
with replacing the key's trailing `/index.md` by `.md` only when the
directory name has no extension of its own. -/
theorem C10_amended (fs : FS) :
    ∀ e ∈ (collapseRun fs).renames,
      ∃ d : Path, d ≠ [] ∧ e.1 = d ++ ["index.md"] ∧ e.2 = newPathOf d ∧
        pathStr e.1 = pathStr d ++ "/index.md" ∧
        dropRight9 (pathStr e.1) = pathStr d := by
  intro e he
  have hL : ∀ p ∈ sortIndexPaths fs, p.getLast? = some "index.md" :=
    fun p hp => mem_sortIndexPaths_getLast hp
  have hsh := collapseList_renames_shape (sortIndexPaths fs) hL ⟨fs, []⟩
    (by intro e' he'; cases he') e he
  obtain ⟨d, hd, h1, h2⟩ := hsh
  refine ⟨d, hd, h1, h2, ?_, ?_⟩
  · rw [h1, pathStr_concat hd "index.md"]
    apply String.ext
    rw [String.data_append, String.data_append, String.data_append]
    simp
  · rw [h1]
    exact dropRight9_pathStr_concat hd

/-- C10 amended witness: the collapse of `a/b` records key
`a/b/index.md` with value `a/b.md`. -/
theorem C10_amended_witness :
    ((["a", "b", "index.md"] : Path), (["a", "b.md"] : Path)) ∈
      (collapseRun [⟨["a", "b", "index.md"], "x"⟩]).renames ∧
    ∃ d : Path, d ≠ [] ∧
      ((["a", "b", "index.md"] : Path), (["a", "b.md"] : Path)).1 =
        d ++ ["index.md"] ∧
      ((["a", "b", "index.md"] : Path), (["a", "b.md"] : Path)).2 =
        newPathOf d ∧
      pathStr ((["a", "b", "index.md"] : Path), (["a", "b.md"] : Path)).1 =
        pathStr d ++ "/index.md" ∧
      dropRight9 (pathStr ((["a", "b", "index.md"] : Path),
        (["a", "b.md"] : Path)).1) = pathStr d :=
  ⟨by decide, C10_amended [⟨["a", "b", "index.md"], "x"⟩]
    ((["a", "b", "index.md"] : Path), (["a", "b.md"] : Path)) (by decide)⟩

/-! ### Step-level facts about the Collapser -/

theorem getLast?_eq_none_iff_nil {d : Path} : d.getLast? = none ↔ d = [] := by
  cases d with
  | nil => simp
  | cons x xs =>
    constructor
    · intro h
      rw [List.getLast?_eq_getLast (x :: xs) (by simp)] at h
      exact Option.noConfusion h
    · intro h
      exact absurd h (by simp)

theorem newPathOf_eq {d : Path} (hd : d ≠ []) :
    newPathOf d = d.dropLast ++ [withSuffixMd (d.getLast?.getD "")] := by
  unfold newPathOf
  cases hg : d.getLast? with
  | none => exact absurd (getLast?_eq_none_iff_nil.mp hg) hd
  | some n => simp

theorem length_newPathOf {d : Path} (hd : d ≠ []) :
    (newPathOf d).length = d.length := by
  rw [newPathOf_eq hd]
  rw [List.length_append, List.length_singleton, List.length_dropLast]
  have := List.length_pos.mpr hd
  omega

theorem ne_newPathOf {p : Path} (hd : p.dropLast ≠ []) :
    p ≠ newPathOf p.dropLast := by
  intro he
  have hp : p ≠ [] := by
    intro h0
    rw [h0] at hd
    exact hd rfl
  have h1 : (newPathOf p.dropLast).length = p.dropLast.length :=
    length_newPathOf hd
  have h2 : p.dropLast.length + 1 = p.length := by
    rw [List.length_dropLast]
    have := List.length_pos.mpr hp
    omega
  rw [← he] at h1
  omega

theorem mem_doRename {fs : FS} {old new : Path} {g : FSFile} :
    g ∈ doRename fs old new ↔
      ∃ f ∈ fs, f.path ≠ new ∧
        g = if f.path = old then ⟨new, f.content⟩ else f := by
  unfold doRename
  rw [List.mem_map]
  constructor
  · rintro ⟨f, hf, hg⟩
    have hmem := List.mem_filter.mp hf
    exact ⟨f, hmem.1, by simpa using hmem.2, hg.symm⟩
  · rintro ⟨f, hf, hne, hg⟩
    exact ⟨f, List.mem_filter.mpr ⟨hf, by simpa using hne⟩, hg.symm⟩

theorem fileExists_doRename_self {fs : FS} {old new : Path}
    (hne : old ≠ new) :
    fileExists (doRename fs old new) old = false := by
  cases hex : fileExists (doRename fs old new) old with
  | false => rfl
  | true =>
    exfalso
    obtain ⟨g, hg, hgp⟩ := fileExists_iff.mp hex
    obtain ⟨f, _, hfne, hge⟩ := mem_doRename.mp hg
    by_cases hfo : f.path = old
    · rw [if_pos hfo] at hge
      rw [hge] at hgp
      exact hne hgp.symm
    · rw [if_neg hfo] at hge
      rw [hge] at hgp
      exact hfo hgp

theorem fileExists_doRename_new {fs : FS} {old new : Path}
    (hne : old ≠ new) (hex : fileExists fs old = true) :
    fileExists (doRename fs old new) new = true := by
  obtain ⟨f, hf, hfp⟩ := fileExists_iff.mp hex
  apply fileExists_iff.mpr
  refine ⟨⟨new, f.content⟩, ?_, rfl⟩
  apply mem_doRename.mpr
  refine ⟨f, hf, ?_, ?_⟩
  · rw [hfp]
    exact hne
  · rw [if_pos hfp]

theorem fileExists_doRename_other {fs : FS} {old new q : Path}
    (hqo : q ≠ old) (hqn : q ≠ new) :
    fileExists (doRename fs old new) q = fileExists fs q := by
  have hiff : fileExists (doRename fs old new) q = true ↔
      fileExists fs q = true := by
    rw [fileExists_iff, fileExists_iff]
    constructor
    · rintro ⟨g, hg, hgp⟩
      obtain ⟨f, hf, hfne, hge⟩ := mem_doRename.mp hg
      by_cases hfo : f.path = old
      · rw [if_pos hfo] at hge
        rw [hge] at hgp
        exact absurd hgp.symm hqn
      · rw [if_neg hfo] at hge
        rw [hge] at hgp
        exact ⟨f, hf, hgp⟩
    · rintro ⟨f, hf, hfp⟩
      refine ⟨f, mem_doRename.mpr ⟨f, hf, ?_, ?_⟩, hfp⟩
      · rw [hfp]
        exact hqn
      · rw [if_neg (by rw [hfp]; exact hqo)]
  cases h1 : fileExists fs q with
  | true => exact hiff.mpr h1
  | false =>
    cases h2 : fileExists (doRename fs old new) q with
    | false => rfl
    | true => rw [h1] at hiff; exact absurd (hiff.mp h2) Bool.false_ne_true

theorem collapseStep_root {st : CState} {p : Path} (hd : p.dropLast = []) :
    collapseStep st p = st := by
  unfold collapseStep
  rw [if_pos hd]

theorem collapseStep_not_solo {st : CState} {p : Path}
    (hs : soloIndex st.fs p.dropLast = false) :
    collapseStep st p = st := by
  unfold collapseStep
  by_cases hd : p.dropLast = []
  · rw [if_pos hd]
  · rw [if_neg hd, hs]
    simp

theorem collapseStep_collapse {st : CState} {p : Path}
    (hd : p.dropLast ≠ []) (hs : soloIndex st.fs p.dropLast = true) :
    collapseStep st p =
      ⟨doRename st.fs p (newPathOf p.dropLast),
        st.renames ++ [(p, newPathOf p.dropLast)]⟩ := by
  unfold collapseStep
  rw [if_neg hd, if_pos hs]

theorem soloIndex_mdChildren_eq {fs : FS} {d : Path}
    (hs : soloIndex fs d = true) :
    mdChildren fs d = [d ++ ["index.md"]] ∧ hasSubdir fs d = false := by
  unfold soloIndex at hs
  cases hm : mdChildren fs d with
  | nil => rw [hm] at hs; simp at hs
  | cons q qs =>
    cases qs with
    | cons q2 qs2 => rw [hm] at hs; simp at hs
    | nil =>
      rw [hm, Bool.and_eq_true] at hs
      obtain ⟨hq, hns⟩ := hs
      have hqmem : q ∈ mdChildren fs d := by rw [hm]; simp
      have hmc := mem_mdChildren.mp hqmem
      have hqlast : q.getLast? = some "index.md" := by simpa using hq
      have hqe : q = d ++ ["index.md"] := by
        have h1 := eq_dropLast_concat_of_ne_nil hmc.2.1
        rw [hqlast] at h1
        rw [hmc.2.2.1] at h1
        simpa using h1
      refine ⟨by rw [hqe], ?_⟩
      cases hh : hasSubdir fs d with
      | false => rfl
      | true => rw [hh] at hns; simp at hns

theorem soloIndex_exists_index {fs : FS} {d : Path}
    (hs : soloIndex fs d = true) :
    fileExists fs (d ++ ["index.md"]) = true := by
  have hm := (soloIndex_mdChildren_eq hs).1
  have : d ++ ["index.md"] ∈ mdChildren fs d := by rw [hm]; simp
  exact (mem_mdChildren.mp this).1

theorem soloIndex_no_subdir {fs : FS} {d : Path}
    (hs : soloIndex fs d = true) :
    ∀ c, c ≠ "__pycache__" → isDirOf fs (d ++ [c]) = false := by
  intro c hc
  cases hdir : isDirOf fs (d ++ [c]) with
  | false => rfl
  | true =>
    have := hasSubdir_iff.mpr ⟨c, hc, hdir⟩
    rw [(soloIndex_mdChildren_eq hs).2] at this
    exact (Bool.false_ne_true this).elim

theorem index_path_eq {p : Path} (hp : p.getLast? = some "index.md") :
    p = p.dropLast ++ ["index.md"] := by
  have hpne : p ≠ [] := by
    intro h0
    rw [h0] at hp
    simp at hp
  have h1 := eq_dropLast_concat_of_ne_nil hpne
  rw [hp] at h1
  simpa using h1

theorem step_keep {st : CState} {p q : Path}
    (hp : p.getLast? = some "index.md")
    (hex : fileExists st.fs q = true) (hne : q ≠ p) :
    fileExists (collapseStep st p).fs q = true := by
  by_cases hd : p.dropLast = []
  · rw [collapseStep_root hd]; exact hex
  cases hs : soloIndex st.fs p.dropLast with
  | false => rw [collapseStep_not_solo hs]; exact hex
  | true =>
    rw [collapseStep_collapse hd hs]
    by_cases hqn : q = newPathOf p.dropLast
    · subst hqn
      apply fileExists_doRename_new (ne_newPathOf hd)
      have := soloIndex_exists_index hs
      rw [← index_path_eq hp] at this
      exact this
    · rw [fileExists_doRename_other hne hqn]
      exact hex

theorem prefix_of_append_singleton {D A : Path} {w : String}
    (hpre : D.isPrefixOf (A ++ [w]) = true) (hle : D.length ≤ A.length) :
    D.isPrefixOf A = true := by
  rw [List.isPrefixOf_iff_prefix] at hpre ⊢
  have htake := List.prefix_iff_eq_take.mp hpre
  rw [List.take_append_of_le_length hle] at htake
  rw [htake]
  exact List.take_prefix _ _

theorem step_dirs_shrink {st : CState} {p D : Path}
    (hdir : isDirOf (collapseStep st p).fs D = true) :
    isDirOf st.fs D = true := by
  by_cases hd : p.dropLast = []
  · rw [collapseStep_root hd] at hdir; exact hdir
  cases hs : soloIndex st.fs p.dropLast with
  | false => rw [collapseStep_not_solo hs] at hdir; exact hdir
  | true =>
    rw [collapseStep_collapse hd hs] at hdir
    unfold isDirOf at hdir ⊢
    rw [List.any_eq_true] at hdir ⊢
    obtain ⟨g, hg, hcond⟩ := hdir
    obtain ⟨f, hf, hfne, hge⟩ := mem_doRename.mp hg
    by_cases hfo : f.path = p
    · rw [if_pos hfo] at hge
      subst hge
      rw [Bool.and_eq_true] at hcond
      obtain ⟨hpre, hlen⟩ := hcond
      have hlen' : D.length <
          (⟨newPathOf p.dropLast, f.content⟩ : FSFile).path.length :=
        of_decide_eq_true hlen
      refine ⟨f, hf, ?_⟩
      rw [Bool.and_eq_true]
      have hnp := newPathOf_eq hd
      have hlenA : (newPathOf p.dropLast).length = p.dropLast.length :=
        length_newPathOf hd
      have hDle : D.length ≤ p.dropLast.dropLast.length := by
        have h2 : p.dropLast.dropLast.length + 1 = p.dropLast.length := by
          rw [List.length_dropLast]
          have := List.length_pos.mpr hd
          omega
        have h3 : D.length < (newPathOf p.dropLast).length := hlen'
        omega
      have hpreA : D.isPrefixOf p.dropLast.dropLast = true := by
        apply prefix_of_append_singleton (A := p.dropLast.dropLast)
          (w := withSuffixMd (p.dropLast.getLast?.getD ""))
        · have : (⟨newPathOf p.dropLast, f.content⟩ : FSFile).path =
              newPathOf p.dropLast := rfl
          rw [this, hnp] at hpre
          exact hpre
        · exact hDle
      have hpre2 : D.isPrefixOf f.path = true := by
        rw [List.isPrefixOf_iff_prefix] at hpreA ⊢
        rw [hfo]
        exact hpreA.trans ((List.dropLast_prefix _).trans (List.dropLast_prefix _))
      refine ⟨hpre2, ?_⟩
      apply decide_eq_true
      have h2 : p.dropLast.length + 1 = p.length := by
        have hpne : p ≠ [] := by
          intro h0
          rw [h0] at hd
          exact hd rfl
        rw [List.length_dropLast]
        have := List.length_pos.mpr hpne
        omega
      rw [hfo]
      have h3 : D.length < (newPathOf p.dropLast).length := hlen'
      omega
    · rw [if_neg hfo] at hge
      subst hge
      exact ⟨g, hf, hcond⟩

theorem step_new {st : CState} {p q : Path}
    (hex' : fileExists (collapseStep st p).fs q = true)
    (hex : fileExists st.fs q = false) :
    p.dropLast ≠ [] ∧ soloIndex st.fs p.dropLast = true ∧
      q = newPathOf p.dropLast := by
  by_cases hd : p.dropLast = []
  · rw [collapseStep_root hd] at hex'
    rw [hex] at hex'
    exact (Bool.false_ne_true hex').elim
  cases hs : soloIndex st.fs p.dropLast with
  | false =>
    rw [collapseStep_not_solo hs] at hex'
    rw [hex] at hex'
    exact (Bool.false_ne_true hex').elim
  | true =>
    refine ⟨hd, rfl, ?_⟩
    rw [collapseStep_collapse hd hs] at hex'
    by_cases hqn : q = newPathOf p.dropLast
    · exact hqn
    · exfalso
      by_cases hqo : q = p
      · subst hqo
        rw [fileExists_doRename_self (ne_newPathOf hd)] at hex'
        exact Bool.false_ne_true hex'
      · rw [fileExists_doRename_other hqo hqn] at hex'
        rw [hex] at hex'
        exact Bool.false_ne_true hex'

theorem renames_mono (L : List Path) : ∀ st : CState, ∀ e ∈ st.renames,
    e ∈ (collapseList st L).renames := by
  induction L with
  | nil => intro st e he; exact he
  | cons p ps ih =>
    intro st e he
    apply ih
    by_cases hd : p.dropLast = []
    · rw [collapseStep_root hd]; exact he
    cases hs : soloIndex st.fs p.dropLast with
    | false => rw [collapseStep_not_solo hs]; exact he
    | true =>
      rw [collapseStep_collapse hd hs]
      exact List.mem_append_left _ he

/-! ### No path is ever re-created at a removed key -/

theorem no_readd (L : List Path) : ∀ (st : CState) (q : Path),
    fileExists st.fs q = false →
    (∀ c, withSuffixMd c = q.getLast?.getD "" →
      isDirOf st.fs (q.dropLast ++ [c]) = false) →
    fileExists (collapseList st L).fs q = false := by
  induction L with
  | nil => intro st q h _; exact h
  | cons p ps ih =>
    intro st q hq hdirs
    show fileExists (collapseList (collapseStep st p) ps).fs q = false
    apply ih
    · cases hex : fileExists (collapseStep st p).fs q with
      | false => rfl
      | true =>
        exfalso
        obtain ⟨hd, hs, hqn⟩ := step_new hex hq
        have hnp := newPathOf_eq hd
        have hqd : q.dropLast = p.dropLast.dropLast := by
          rw [hqn, hnp, List.dropLast_concat]
        have hqlast : q.getLast?.getD "" =
            withSuffixMd (p.dropLast.getLast?.getD "") := by
          rw [hqn, hnp, List.getLast?_concat]
          rfl
        have hdir : isDirOf st.fs
            (q.dropLast ++ [p.dropLast.getLast?.getD ""]) = true := by
          rw [hqd]
          have hde : p.dropLast.dropLast ++ [p.dropLast.getLast?.getD ""] =
              p.dropLast := (eq_dropLast_concat_of_ne_nil hd).symm
          rw [hde]
          have hexi := soloIndex_exists_index hs
          unfold isDirOf
          rw [List.any_eq_true]
          obtain ⟨f, hf, hfp⟩ := fileExists_iff.mp hexi
          refine ⟨f, hf, ?_⟩
          rw [Bool.and_eq_true]
          constructor
          · rw [hfp, List.isPrefixOf_iff_prefix]
            exact ⟨["index.md"], rfl⟩
          · apply decide_eq_true
            rw [hfp]
            simp
        have hF := hdirs (p.dropLast.getLast?.getD "") hqlast.symm
        rw [hF] at hdir
        exact absurd hdir Bool.false_ne_true
    · intro c hc
      cases hd2 : isDirOf (collapseStep st p).fs (q.dropLast ++ [c]) with
      | false => rfl
      | true =>
        have h3 := step_dirs_shrink hd2
        rw [hdirs c hc] at h3
        exact absurd h3 Bool.false_ne_true

/-! ### A file of the tree either survives the run or is recorded as a key -/

theorem file_moves_or_recorded (L : List Path)
    (hL : ∀ p ∈ L, p.getLast? = some "index.md") :
    ∀ (st : CState) (q : Path), fileExists st.fs q = true →
      fileExists (collapseList st L).fs q = true ∨
        ∃ v, (q, v) ∈ (collapseList st L).renames := by
  induction L with
  | nil => intro st q h; exact Or.inl h
  | cons p ps ih =>
    intro st q hq
    have hrest : ∀ r ∈ ps, r.getLast? = some "index.md" :=
      fun r hr => hL r (List.mem_cons_of_mem p hr)
    by_cases hqp : q = p
    · subst hqp
      by_cases hd : q.dropLast = []
      · have h1 : fileExists (collapseStep st q).fs q = true := by
          rw [collapseStep_root hd]
          exact hq
        exact ih hrest _ q h1
      cases hs : soloIndex st.fs q.dropLast with
      | false =>
        have h1 : fileExists (collapseStep st q).fs q = true := by
          rw [collapseStep_not_solo hs]
          exact hq
        exact ih hrest _ q h1
      | true =>
        refine Or.inr ⟨newPathOf q.dropLast, ?_⟩
        show (q, newPathOf q.dropLast) ∈
          (collapseList (collapseStep st q) ps).renames
        apply renames_mono ps (collapseStep st q)
        rw [collapseStep_collapse hd hs]
        simp
    · have h1 : fileExists (collapseStep st p).fs q = true :=
        step_keep (hL p (List.mem_cons_self p ps)) hq hqp
      exact ih hrest _ q h1

/-! ### Soundness of every recorded entry -/

theorem collapseList_entries_sound (L : List Path)
    (hL : ∀ p ∈ L, p.getLast? = some "index.md") :
    ∀ st : CState, ∀ e ∈ (collapseList st L).renames,
      e ∈ st.renames ∨
        (fileExists (collapseList st L).fs e.1 = false ∧
          (fileExists (collapseList st L).fs e.2 = true ∨
            ∃ e' ∈ (collapseList st L).renames, e'.1 = e.2)) := by
  induction L with
  | nil => intro st e he; exact Or.inl he
  | cons p ps ih =>
    intro st e he
    have hrestL : ∀ r ∈ ps, r.getLast? = some "index.md" :=
      fun r hr => hL r (List.mem_cons_of_mem p hr)
    have hrest := ih hrestL (collapseStep st p) e he
    rcases hrest with hmem | hdone
    · by_cases hd : p.dropLast = []
      · rw [collapseStep_root hd] at hmem
        exact Or.inl hmem
      cases hs : soloIndex st.fs p.dropLast with
      | false =>
        rw [collapseStep_not_solo hs] at hmem
        exact Or.inl hmem
      | true =>
        rw [collapseStep_collapse hd hs] at hmem
        rcases List.mem_append.mp hmem with h1 | h2
        · exact Or.inl h1
        · have he2 : e = (p, newPathOf p.dropLast) := by simpa using h2
          subst he2
          right
          constructor
          · show fileExists (collapseList (collapseStep st p) ps).fs p = false
            apply no_readd
            · rw [collapseStep_collapse hd hs]
              exact fileExists_doRename_self (ne_newPathOf hd)
            · intro c hc
              have hpl : p.getLast?.getD "" = "index.md" := by
                rw [hL p (List.mem_cons_self p ps)]
                rfl
              rw [hpl] at hc
              have hcpy : c ≠ "__pycache__" := by
                intro h0
                rw [h0] at hc
                exact absurd hc (by decide)
              cases hdd : isDirOf (collapseStep st p).fs
                  (p.dropLast ++ [c]) with
              | false => rfl
              | true =>
                have h3 := step_dirs_shrink hdd
                rw [soloIndex_no_subdir hs c hcpy] at h3
                exact absurd h3 Bool.false_ne_true
          · have hnew : fileExists (collapseStep st p).fs
                (newPathOf p.dropLast) = true := by
              rw [collapseStep_collapse hd hs]
              apply fileExists_doRename_new (ne_newPathOf hd)
              have hexi := soloIndex_exists_index hs
              rw [← index_path_eq (hL p (List.mem_cons_self p ps))] at hexi
              exact hexi
            have hrec := file_moves_or_recorded ps hrestL (collapseStep st p)
              _ hnew
            rcases hrec with h4 | ⟨v, h4⟩
            · exact Or.inl h4
            · exact Or.inr ⟨(newPathOf p.dropLast, v), h4, rfl⟩
    · exact Or.inr hdone

/-- C5 amended: after the Collapser completes, every key of the
RenameMap is a path at which no file exists in the output tree; every
value is either a path at which a file does exist, or is itself the key
of another rename entry — the value was later moved away by a chained
collapse (possible only for directories named `index`/`index.*`); an
unconditional "every value exists" is refuted by `C5_counterexample`.
(`WF` delimits the trees the Page Collector can produce, on which the
total model agrees with the Python code.) -/
theorem C5_amended (fs : FS) (hwf : WF fs) :
    ∀ e ∈ (collapseRun fs).renames,
      fileExists (collapseRun fs).fs e.1 = false ∧
      (fileExists (collapseRun fs).fs e.2 = true ∨
        ∃ e' ∈ (collapseRun fs).renames, e'.1 = e.2) := by
  intro e he
  have hL : ∀ p ∈ sortIndexPaths fs, p.getLast? = some "index.md" :=
    fun p hp => mem_sortIndexPaths_getLast hp
  have hs := collapseList_entries_sound (sortIndexPaths fs) hL ⟨fs, []⟩ e he
  rcases hs with h | h
  · cases h
  · exact h

/-- C5 amended witness: for the single collapse of `docs/guide`, the key
is gone and the value exists. -/
theorem C5_amended_witness :
    WF [⟨["docs", "guide", "index.md"], "G"⟩] ∧
    ((["docs", "guide", "index.md"] : Path), (["docs", "guide.md"] : Path)) ∈
      (collapseRun [⟨["docs", "guide", "index.md"], "G"⟩]).renames ∧
    (fileExists (collapseRun [⟨["docs", "guide", "index.md"], "G"⟩]).fs
        ["docs", "guide", "index.md"] = false ∧
      (fileExists (collapseRun [⟨["docs", "guide", "index.md"], "G"⟩]).fs
          ["docs", "guide.md"] = true ∨
        ∃ e' ∈ (collapseRun [⟨["docs", "guide", "index.md"], "G"⟩]).renames,
          e'.1 = (["docs", "guide.md"] : Path))) :=
  ⟨by decide, by decide,
    C5_amended [⟨["docs", "guide", "index.md"], "G"⟩] (by decide)
      ((["docs", "guide", "index.md"] : Path), (["docs", "guide.md"] : Path))
      (by decide)⟩

/-! ### Invariants for idempotence -/

theorem endsMd_withSuffixMd (n : String) : endsMd (withSuffixMd n) = true := by
  unfold withSuffixMd endsMd
  have hsuf : ∀ l : List Char, ".md".data.isSuffixOf (l ++ ".md".data) = true := by
    intro l
    rw [List.isSuffixOf_iff_suffix]
    exact List.suffix_append l _
  cases lastDotIdx n.data with
  | none => exact hsuf n.data
  | some i =>
    show ".md".data.isSuffixOf
      (if 0 < i ∧ i + 1 < n.data.length then
        (⟨n.data.take i ++ ".md".data⟩ : String)
      else ⟨n.data ++ ".md".data⟩).data = true
    split
    · exact hsuf _
    · exact hsuf _

theorem getLast?_getD_mem {l : Path} (hl : l ≠ []) : l.getLast?.getD "" ∈ l := by
  rw [getLast?_isSome_of_ne_nil hl]
  simpa using List.getLast_mem hl

theorem exists_file_at {fs : FS} {q : Path} (h : fileExists fs q = true) :
    ∃ f ∈ fs, f.path = q := fileExists_iff.mp h

theorem step_dir_vanish {st : CState} {p D : Path}
    (hp : p.getLast? = some "index.md")
    (hd : p.dropLast ≠ []) (hs : soloIndex st.fs p.dropLast = true)
    (hdir : isDirOf st.fs D = true)
    (hdir' : isDirOf (collapseStep st p).fs D = false) :
    p.dropLast = D := by
  unfold isDirOf at hdir
  rw [List.any_eq_true] at hdir
  obtain ⟨f, hf, hcond⟩ := hdir
  rw [Bool.and_eq_true] at hcond
  obtain ⟨hpre, hlen⟩ := hcond
  have hlen' : D.length < f.path.length := of_decide_eq_true hlen
  have hpex : fileExists st.fs p = true := by
    have := soloIndex_exists_index hs
    rw [← index_path_eq hp] at this
    exact this
  by_cases hfp : f.path = p
  · by_contra hne
    rw [hfp] at hpre hlen'
    have hpne : p ≠ [] := by
      intro h0
      rw [h0] at hd
      exact hd rfl
    have hlp : p.dropLast.length + 1 = p.length := by
      rw [List.length_dropLast]
      have := List.length_pos.mpr hpne
      omega
    have hDdp : D.isPrefixOf p.dropLast = true := by
      apply prefix_of_append_singleton (A := p.dropLast)
        (w := p.getLast?.getD "")
      · rw [← eq_dropLast_concat_of_ne_nil hpne]
        exact hpre
      · omega
    have hDlt : D.length < p.dropLast.length := by
      rcases Nat.lt_or_ge D.length p.dropLast.length with h0 | h0
      · exact h0
      · exfalso
        apply hne
        symm
        apply List.IsPrefix.eq_of_length (List.isPrefixOf_iff_prefix.mp hDdp)
        have := (List.isPrefixOf_iff_prefix.mp hDdp).length_le
        omega
    have hlp2 : p.dropLast.dropLast.length + 1 = p.dropLast.length := by
      rw [List.length_dropLast]
      have := List.length_pos.mpr hd
      omega
    have hDdp2 : D.isPrefixOf p.dropLast.dropLast = true := by
      apply prefix_of_append_singleton (A := p.dropLast.dropLast)
        (w := p.dropLast.getLast?.getD "")
      · rw [← eq_dropLast_concat_of_ne_nil hd]
        exact hDdp
      · omega
    -- the moved file sits below D in the new state: contradiction
    have hnew : fileExists (collapseStep st p).fs (newPathOf p.dropLast) =
        true := by
      rw [collapseStep_collapse hd hs]
      exact fileExists_doRename_new (ne_newPathOf hd) hpex
    obtain ⟨g, hg, hgp⟩ := exists_file_at hnew
    have : isDirOf (collapseStep st p).fs D = true := by
      unfold isDirOf
      rw [List.any_eq_true]
      refine ⟨g, hg, ?_⟩
      rw [Bool.and_eq_true]
      constructor
      · rw [hgp, newPathOf_eq hd]
        rw [List.isPrefixOf_iff_prefix] at hDdp2 ⊢
        exact hDdp2.trans (List.prefix_append _ _)
      · apply decide_eq_true
        rw [hgp, newPathOf_eq hd]
        rw [List.length_append, List.length_singleton]
        omega
    rw [hdir'] at this
    exact Bool.false_ne_true this
  · exfalso
    have hfex : fileExists st.fs f.path = true :=
      fileExists_iff.mpr ⟨f, hf, rfl⟩
    have hkeep := step_keep hp hfex hfp
    obtain ⟨g, hg, hgp⟩ := exists_file_at hkeep
    have : isDirOf (collapseStep st p).fs D = true := by
      unfold isDirOf
      rw [List.any_eq_true]
      refine ⟨g, hg, ?_⟩
      rw [Bool.and_eq_true]
      rw [hgp]
      refine ⟨hpre, decide_eq_true hlen'⟩
    rw [hdir'] at this
    exact Bool.false_ne_true this

theorem noIdxDir_step {st : CState} {p : Path}
    (hp : p.getLast? = some "index.md")
    (hni : NoIdxDir st.fs) : NoIdxDir (collapseStep st p).fs := by
  by_cases hd : p.dropLast = []
  · rw [collapseStep_root hd]; exact hni
  cases hs : soloIndex st.fs p.dropLast with
  | false => rw [collapseStep_not_solo hs]; exact hni
  | true =>
    rw [collapseStep_collapse hd hs]
    intro g hg c hc
    obtain ⟨f, hf, hfne, hge⟩ := mem_doRename.mp hg
    by_cases hfo : f.path = p
    · rw [if_pos hfo] at hge
      subst hge
      have hpathg : (⟨newPathOf p.dropLast, f.content⟩ : FSFile).path =
          newPathOf p.dropLast := rfl
      rw [hpathg, newPathOf_eq hd, List.dropLast_concat] at hc
      have hcp : c ∈ p.dropLast := List.dropLast_subset _ hc
      have hpex : fileExists st.fs p = true := by
        have := soloIndex_exists_index hs
        rw [← index_path_eq hp] at this
        exact this
      obtain ⟨f0, hf0, hf0p⟩ := exists_file_at hpex
      have : c ∈ f0.path.dropLast := by
        rw [hf0p]
        exact hcp
      exact hni f0 hf0 c this
    · rw [if_neg hfo] at hge
      subst hge
      exact hni g hf c hc

theorem pathsNodup_step {st : CState} {p : Path}
    (hnd : pathsNodup st.fs) : pathsNodup (collapseStep st p).fs := by
  by_cases hd : p.dropLast = []
  · rw [collapseStep_root hd]; exact hnd
  cases hs : soloIndex st.fs p.dropLast with
  | false => rw [collapseStep_not_solo hs]; exact hnd
  | true =>
    rw [collapseStep_collapse hd hs]
    unfold pathsNodup
    unfold doRename
    rw [List.map_map]
    have hflf : (st.fs.filter
        (fun f => f.path ≠ newPathOf p.dropLast)).Nodup := by
      apply List.Nodup.of_map FSFile.path
      apply List.Nodup.sublist ?_ hnd
      exact List.Sublist.map _ (List.filter_sublist _)
    apply List.Nodup.map_on ?_ hflf
    intro x hx y hy hxy
    have hxne : x.path ≠ newPathOf p.dropLast := by
      simpa using (List.mem_filter.mp hx).2
    have hyne : y.path ≠ newPathOf p.dropLast := by
      simpa using (List.mem_filter.mp hy).2
    have hxmem := (List.mem_filter.mp hx).1
    have hymem := (List.mem_filter.mp hy).1
    simp only [Function.comp_apply] at hxy
    by_cases hxo : x.path = p
    · by_cases hyo : y.path = p
      · exact List.inj_on_of_nodup_map hnd hxmem hymem (by rw [hxo, hyo])
      · exfalso
        rw [if_pos hxo, if_neg hyo] at hxy
        exact hyne (hxy.symm)
    · by_cases hyo : y.path = p
      · exfalso
        rw [if_neg hxo, if_pos hyo] at hxy
        exact hxne hxy
      · rw [if_neg hxo, if_neg hyo] at hxy
        exact List.inj_on_of_nodup_map hnd hxmem hymem hxy

theorem blocked_step {st : CState} {p d : Path}
    (hp : p.getLast? = some "index.md") (hni : NoIdxDir st.fs)
    (hb : Blocked st.fs d) : Blocked (collapseStep st p).fs d := by
  rcases hb with ⟨q, hq, hqne, hqd, hqmd, hqix⟩ | ⟨c, hc, hdir⟩
  · left
    refine ⟨q, ?_, hqne, hqd, hqmd, hqix⟩
    apply step_keep hp hq
    intro h0
    rw [h0, hp] at hqix
    exact hqix rfl
  · cases hstill : isDirOf (collapseStep st p).fs (d ++ [c]) with
    | true => exact Or.inr ⟨c, hc, hstill⟩
    | false =>
      by_cases hdp : p.dropLast = []
      · rw [collapseStep_root hdp] at hstill
        rw [hstill] at hdir
        exact absurd hdir Bool.false_ne_true
      cases hsolo : soloIndex st.fs p.dropLast with
      | false =>
        rw [collapseStep_not_solo hsolo] at hstill
        rw [hstill] at hdir
        exact absurd hdir Bool.false_ne_true
      | true =>
        have hDeq := step_dir_vanish hp hdp hsolo hdir hstill
        left
        have hnpe : newPathOf p.dropLast = d ++ [withSuffixMd c] := by
          rw [newPathOf_eq hdp, hDeq, List.dropLast_concat,
            List.getLast?_concat]
          rfl
        refine ⟨d ++ [withSuffixMd c], ?_, by simp, List.dropLast_concat,
          ?_, ?_⟩
        · have hnew : fileExists (collapseStep st p).fs
              (newPathOf p.dropLast) = true := by
            rw [collapseStep_collapse hdp hsolo]
            apply fileExists_doRename_new (ne_newPathOf hdp)
            have := soloIndex_exists_index hsolo
            rw [← index_path_eq hp] at this
            exact this
          rw [← hnpe]
          exact hnew
        · rw [List.getLast?_concat]
          exact endsMd_withSuffixMd c
        · rw [List.getLast?_concat]
          have hpex : fileExists st.fs p = true := by
            have := soloIndex_exists_index hsolo
            rw [← index_path_eq hp] at this
            exact this
          obtain ⟨f0, hf0, hf0p⟩ := exists_file_at hpex
          have hcmem : c ∈ f0.path.dropLast := by
            rw [hf0p, index_path_eq hp, List.dropLast_concat, hDeq]
            simp
          exact hni f0 hf0 c hcmem

theorem blocked_not_solo {fs : FS} {d : Path} (hb : Blocked fs d) :
    soloIndex fs d = false := by
  cases hs : soloIndex fs d with
  | false => rfl
  | true =>
    exfalso
    obtain ⟨hm, hsub⟩ := soloIndex_mdChildren_eq hs
    rcases hb with ⟨q, hq, hqne, hqd, hqmd, hqix⟩ | ⟨c, hc, hdir⟩
    · have hqm : q ∈ mdChildren fs d := mem_mdChildren.mpr ⟨hq, hqne, hqd, hqmd⟩
      rw [hm] at hqm
      have hqe : q = d ++ ["index.md"] := by simpa using hqm
      rw [hqe, List.getLast?_concat] at hqix
      exact hqix rfl
    · have := hasSubdir_iff.mpr ⟨c, hc, hdir⟩
      rw [hsub] at this
      exact Bool.false_ne_true this

theorem blocked_of_not_solo {fs : FS} {d : Path}
    (hnd : pathsNodup fs)
    (hex : fileExists fs (d ++ ["index.md"]) = true)
    (hs : soloIndex fs d = false) : Blocked fs d := by
  have hmem : d ++ ["index.md"] ∈ mdChildren fs d := by
    apply mem_mdChildren.mpr
    refine ⟨hex, by simp, List.dropLast_concat, ?_⟩
    rw [List.getLast?_concat]
    decide
  unfold soloIndex at hs
  cases hm : mdChildren fs d with
  | nil => rw [hm] at hmem; cases hmem
  | cons q qs =>
    cases qs with
    | nil =>
      rw [hm] at hmem hs
      have hqe : d ++ ["index.md"] = q := by simpa using hmem
      have hql : (q.getLast? == some "index.md") = true := by
        rw [← hqe, List.getLast?_concat]
        simp
      simp only [hql, Bool.true_and] at hs
      have hsub : hasSubdir fs d = true := by
        cases hh : hasSubdir fs d with
        | true => rfl
        | false => rw [hh] at hs; simp at hs
      obtain ⟨c, hc, hdir⟩ := hasSubdir_iff.mp hsub
      exact Or.inr ⟨c, hc, hdir⟩
    | cons q2 qs2 =>
      have hnodup : (mdChildren fs d).Nodup := hnd.filter _
      rw [hm] at hnodup hmem
      by_cases hq1 : q = d ++ ["index.md"]
      · have hq2 : q2 ≠ d ++ ["index.md"] := by
          intro h0
          rw [List.nodup_cons] at hnodup
          apply hnodup.1
          rw [hq1, ← h0]
          simp
        have hq2m : q2 ∈ mdChildren fs d := by rw [hm]; simp
        obtain ⟨hex2, hne2, hdl2, hmd2⟩ := mem_mdChildren.mp hq2m
        left
        refine ⟨q2, hex2, hne2, hdl2, hmd2, ?_⟩
        intro hlast
        apply hq2
        have h5 := eq_dropLast_concat_of_ne_nil hne2
        rw [hdl2, hlast] at h5
        exact h5
      · have hqm : q ∈ mdChildren fs d := by rw [hm]; simp
        obtain ⟨hex2, hne2, hdl2, hmd2⟩ := mem_mdChildren.mp hqm
        left
        refine ⟨q, hex2, hne2, hdl2, hmd2, ?_⟩
        intro hlast
        apply hq1
        have h5 := eq_dropLast_concat_of_ne_nil hne2
        rw [hdl2, hlast] at h5
        exact h5

theorem indexInv_step {st : CState} {p : Path} {ps : List Path}
    (hp : p.getLast? = some "index.md")
    (hinv : IndexInv st (p :: ps)) (hni : NoIdxDir st.fs)
    (hnd : pathsNodup st.fs) :
    IndexInv (collapseStep st p) ps := by
  intro q hq hqix hqd
  cases hold : fileExists st.fs q with
  | true =>
    rcases hinv q hold hqix hqd with hmem | hblk
    · rcases List.mem_cons.mp hmem with h0 | h0
      · subst h0
        cases hsolo : soloIndex st.fs q.dropLast with
        | true =>
          exfalso
          rw [collapseStep_collapse hqd hsolo] at hq
          rw [fileExists_doRename_self (ne_newPathOf hqd)] at hq
          exact Bool.false_ne_true hq
        | false =>
          right
          have hb : Blocked st.fs q.dropLast := by
            apply blocked_of_not_solo hnd ?_ hsolo
            rw [← index_path_eq hqix]
            exact hold
          exact blocked_step hp hni hb
      · exact Or.inl h0
    · exact Or.inr (blocked_step hp hni hblk)
  | false =>
    exfalso
    obtain ⟨hd, hs, hqn⟩ := step_new hq hold
    have hql : q.getLast? =
        some (withSuffixMd (p.dropLast.getLast?.getD "")) := by
      rw [hqn, newPathOf_eq hd, List.getLast?_concat]
    rw [hqix] at hql
    have hw : withSuffixMd (p.dropLast.getLast?.getD "") = "index.md" :=
      (Option.some.inj hql).symm
    have hpex : fileExists st.fs p = true := by
      have := soloIndex_exists_index hs
      rw [← index_path_eq hp] at this
      exact this
    obtain ⟨f, hf, hfp⟩ := exists_file_at hpex
    have hc : p.dropLast.getLast?.getD "" ∈ f.path.dropLast := by
      rw [hfp]
      exact getLast?_getD_mem hd
    exact hni f hf _ hc hw

theorem indexInv_run (L : List Path)
    (hL : ∀ p ∈ L, p.getLast? = some "index.md") :
    ∀ st : CState, IndexInv st L → NoIdxDir st.fs → pathsNodup st.fs →
      IndexInv (collapseList st L) [] := by
  induction L with
  | nil => intro st h _ _; exact h
  | cons p ps ih =>
    intro st hinv hni hnd
    have hp := hL p (List.mem_cons_self p ps)
    exact ih (fun r hr => hL r (List.mem_cons_of_mem p hr))
      (collapseStep st p) (indexInv_step hp hinv hni hnd)
      (noIdxDir_step hp hni) (pathsNodup_step hnd)

theorem collapseList_noop (L : List Path) : ∀ st : CState,
    (∀ p ∈ L, p.dropLast = [] ∨ soloIndex st.fs p.dropLast = false) →
    collapseList st L = st := by
  induction L with
  | nil => intro st _; rfl
  | cons p ps ih =>
    intro st h
    have hstep : collapseStep st p = st := by
      rcases h p (List.mem_cons_self p ps) with h0 | h0
      · exact collapseStep_root h0
      · exact collapseStep_not_solo h0
    show collapseList (collapseStep st p) ps = st
    rw [hstep]
    exact ih st (fun r hr => h r (List.mem_cons_of_mem p hr))

/-- C4 amended: if no directory of the tree is named `index` or
`index.*` (no directory name that `with_suffix(".md")` maps to the index
filename — so no collapse can deposit a fresh `index.md`), then running
the Structure Collapser a second time immediately after a first run
produces no change at all to the tree and records an empty second-pass
RenameMap.  Without that proviso a first pass can leave a directory that
became solo-index only through a child collapse, and the second pass
does collapse it (`C4_counterexample`). -/
theorem C4_amended (fs : FS) (hwf : WF fs) (hni : NoIdxDir fs) :
    (collapseRun ((collapseRun fs).fs)).fs = (collapseRun fs).fs ∧
    (collapseRun ((collapseRun fs).fs)).renames = [] := by
  have hL : ∀ p ∈ sortIndexPaths fs, p.getLast? = some "index.md" :=
    fun p hp => mem_sortIndexPaths_getLast hp
  have hinv0 : IndexInv ⟨fs, []⟩ (sortIndexPaths fs) := by
    intro q hq hqix _
    exact Or.inl (mem_sortIndexPaths_iff.mpr ⟨hq, hqix⟩)
  have hfin : IndexInv (collapseRun fs) [] :=
    indexInv_run _ hL ⟨fs, []⟩ hinv0 hni hwf.1
  have hnoop : ∀ p ∈ sortIndexPaths (collapseRun fs).fs,
      p.dropLast = [] ∨ soloIndex (collapseRun fs).fs p.dropLast = false := by
    intro p hp
    by_cases hd : p.dropLast = []
    · exact Or.inl hd
    · right
      obtain ⟨hex, hix⟩ := mem_sortIndexPaths_iff.mp hp
      rcases hfin p hex hix hd with h0 | h0
      · cases h0
      · exact blocked_not_solo h0
  have h2 : collapseList ⟨(collapseRun fs).fs, []⟩
      (sortIndexPaths (collapseRun fs).fs) = ⟨(collapseRun fs).fs, []⟩ :=
    collapseList_noop _ _ hnoop
  constructor
  · show (collapseList ⟨(collapseRun fs).fs, []⟩
      (sortIndexPaths (collapseRun fs).fs)).fs = (collapseRun fs).fs
    rw [h2]
  · show (collapseList ⟨(collapseRun fs).fs, []⟩
      (sortIndexPaths (collapseRun fs).fs)).renames = []
    rw [h2]

/-- C4 amended witness: a tree with a root index and one solo-index
section; the second pass is a no-op. -/
theorem C4_amended_witness :
    WF [⟨["roadmap", "index.md"], "R"⟩, ⟨["index.md"], "root"⟩] ∧
    NoIdxDir [⟨["roadmap", "index.md"], "R"⟩, ⟨["index.md"], "root"⟩] ∧
    ((collapseRun ((collapseRun [⟨["roadmap", "index.md"], "R"⟩,
        ⟨["index.md"], "root"⟩]).fs)).fs =
      (collapseRun [⟨["roadmap", "index.md"], "R"⟩,
        ⟨["index.md"], "root"⟩]).fs ∧
    (collapseRun ((collapseRun [⟨["roadmap", "index.md"], "R"⟩,
        ⟨["index.md"], "root"⟩]).fs)).renames = []) :=
  ⟨by decide, by decide,
    C4_amended [⟨["roadmap", "index.md"], "R"⟩, ⟨["index.md"], "root"⟩]
      (by decide) (by decide)⟩

/-! ### The lexicographic order used by the snapshot sort -/

theorem lexLt_irrefl (a : List Char) : lexLt a a = false := by
  induction a with
  | nil => rfl
  | cons c cs ih =>
    show (decide (c < c) || (c == c && lexLt cs cs)) = false
    simp [ih]

theorem lexLt_trans {a b c : List Char} (hab : lexLt a b = true)
    (hbc : lexLt b c = true) : lexLt a c = true := by
  induction a generalizing b c with
  | nil =>
    cases c with
    | nil => cases b <;> simp [lexLt] at hbc
    | cons z zs => rfl
  | cons x xs ih =>
    cases b with
    | nil => simp [lexLt] at hab
    | cons y ys =>
      cases c with
      | nil => simp [lexLt] at hbc
      | cons z zs =>
        show (decide (x < z) || (x == z && lexLt xs zs)) = true
        have hab' : x < y ∨ (x = y ∧ lexLt xs ys = true) := by
          have : (decide (x < y) || (x == y && lexLt xs ys)) = true := hab
          simpa [Bool.or_eq_true, Bool.and_eq_true, decide_eq_true_eq,
            beq_iff_eq] using this
        have hbc' : y < z ∨ (y = z ∧ lexLt ys zs = true) := by
          have : (decide (y < z) || (y == z && lexLt ys zs)) = true := hbc
          simpa [Bool.or_eq_true, Bool.and_eq_true, decide_eq_true_eq,
            beq_iff_eq] using this
        simp only [Bool.or_eq_true, Bool.and_eq_true, decide_eq_true_eq,
          beq_iff_eq]
        rcases hab' with h1 | ⟨h1, h1'⟩
        · rcases hbc' with h2 | ⟨h2, h2'⟩
          · exact Or.inl (lt_trans h1 h2)
          · exact Or.inl (h2 ▸ h1)
        · rcases hbc' with h2 | ⟨h2, h2'⟩
          · exact Or.inl (h1 ▸ h2)
          · exact Or.inr ⟨h1.trans h2, ih h1' h2'⟩

theorem lexLt_asymm {a b : List Char} (h : lexLt a b = true) :
    lexLt b a = false := by
  cases hba : lexLt b a with
  | false => rfl
  | true =>
    have := lexLt_trans h hba
    rw [lexLt_irrefl a] at this
    exact absurd this Bool.false_ne_true

theorem lexLt_total {a b : List Char} (h : lexLt a b = false)
    (hne : a ≠ b) : lexLt b a = true := by
  induction a generalizing b with
  | nil =>
    cases b with
    | nil => exact absurd rfl hne
    | cons y ys => simp [lexLt] at h
  | cons x xs ih =>
    cases b with
    | nil => rfl
    | cons y ys =>
      have h' : ¬ (x < y) ∧ (x = y → lexLt xs ys = false) := by
        have hh : (decide (x < y) || (x == y && lexLt xs ys)) = false := h
        rw [Bool.or_eq_false_iff, Bool.and_eq_false_iff] at hh
        refine ⟨by simpa using hh.1, ?_⟩
        intro hxy
        rcases hh.2 with h2 | h2
        · rw [hxy] at h2; simp at h2
        · exact h2
      show (decide (y < x) || (y == x && lexLt ys xs)) = true
      simp only [Bool.or_eq_true, Bool.and_eq_true, decide_eq_true_eq,
        beq_iff_eq]
      rcases lt_trichotomy x y with h1 | h1 | h1
      · exact absurd h1 h'.1
      · subst h1
        refine Or.inr ⟨rfl, ?_⟩
        apply ih (h'.2 rfl)
        intro h0
        exact hne (by rw [h0])
      · exact Or.inl h1

theorem lexLt_append_left (u : List Char) (a b : List Char) :
    lexLt (u ++ a) (u ++ b) = lexLt a b := by
  induction u with
  | nil => rfl
  | cons c cs ih =>
    show (decide (c < c) || (c == c && lexLt (cs ++ a) (cs ++ b))) =
      lexLt a b
    simp [ih]

theorem lexLt_slash_ext {t : List Char} (ht : '/' ∉ t) (u w : List Char) :
    lexLt t (u ++ '/' :: w) = lexLt t (u ++ ['/']) ∧
    lexLt (u ++ '/' :: w) t = lexLt (u ++ ['/']) t := by
  induction u generalizing t with
  | nil =>
    cases t with
    | nil => exact ⟨rfl, rfl⟩
    | cons c cs =>
      have hc : (c == '/') = false := by
        have : c ≠ '/' := fun h => ht (h ▸ List.mem_cons_self c cs)
        simpa using this
      have hc' : ('/' == c) = false := by
        have : c ≠ '/' := fun h => ht (h ▸ List.mem_cons_self c cs)
        simpa using fun h => this h.symm
      constructor
      · show (decide (c < '/') || (c == '/' && lexLt cs w)) =
          (decide (c < '/') || (c == '/' && lexLt cs []))
        rw [hc]
        simp
      · show (decide ('/' < c) || ('/' == c && lexLt w cs)) =
          (decide ('/' < c) || ('/' == c && lexLt [] cs))
        rw [hc']
        simp
  | cons x xs ih =>
    cases t with
    | nil =>
      constructor
      · rfl
      · rfl
    | cons c cs =>
      have hcs : '/' ∉ cs := fun h => ht (List.mem_cons_of_mem c h)
      obtain ⟨ih1, ih2⟩ := ih hcs
      constructor
      · show (decide (c < x) || (c == x && lexLt cs (xs ++ '/' :: w))) =
          (decide (c < x) || (c == x && lexLt cs (xs ++ ['/'])))
        rw [ih1]
      · show (decide (x < c) || (x == c && lexLt (xs ++ '/' :: w) cs)) =
          (decide (x < c) || (x == c && lexLt (xs ++ ['/']) cs))
        rw [ih2]

/-! ### The snapshot sort is descending -/

theorem pairwise_insertDesc {p : Path} {l : List Path}
    (hl : l.Pairwise (fun a b => pathLt a b = false)) :
    (insertDesc p l).Pairwise (fun a b => pathLt a b = false) := by
  induction l with
  | nil => simp [insertDesc]
  | cons q t ih =>
    rw [List.pairwise_cons] at hl
    obtain ⟨hq, ht⟩ := hl
    unfold insertDesc
    cases hc : pathLt q p with
    | true =>
      simp only [if_true]
      apply List.Pairwise.cons
      · intro b hb
        rcases List.mem_cons.mp hb with rfl | hbt
        · exact lexLt_asymm hc
        · cases hpb : pathLt p b with
          | false => rfl
          | true =>
            have h1 : pathLt q b = true := lexLt_trans hc hpb
            rw [hq b hbt] at h1
            exact absurd h1 Bool.false_ne_true
      · exact List.Pairwise.cons hq ht
    | false =>
      simp only [Bool.false_eq_true, if_false]
      apply List.Pairwise.cons
      · intro b hb
        rcases mem_insertDesc.mp hb with rfl | hbt
        · exact hc
        · exact hq b hbt
      · exact ih ht

theorem pairwise_sortDesc (l : List Path) :
    (sortDesc l).Pairwise (fun a b => pathLt a b = false) := by
  induction l with
  | nil => simp [sortDesc]
  | cons p t ih =>
    show (insertDesc p (sortDesc t)).Pairwise _
    exact pairwise_insertDesc ih

theorem perm_insertDesc (p : Path) (l : List Path) :
    (insertDesc p l).Perm (p :: l) := by
  induction l with
  | nil => exact List.Perm.refl _
  | cons q t ih =>
    unfold insertDesc
    cases hc : pathLt q p with
    | true => exact List.Perm.refl _
    | false =>
      simp only [Bool.false_eq_true, if_false]
      exact (List.Perm.cons q ih).trans (List.Perm.swap p q t)

theorem perm_sortDesc (l : List Path) : (sortDesc l).Perm l := by
  induction l with
  | nil => exact List.Perm.refl _
  | cons p t ih =>
    show (insertDesc p (sortDesc t)).Perm (p :: t)
    exact (perm_insertDesc p (sortDesc t)).trans (List.Perm.cons p ih)

theorem nodup_sortIndexPaths {fs : FS} (hwf : WF fs) :
    (sortIndexPaths fs).Nodup := by
  unfold sortIndexPaths indexPathsOf
  apply (perm_sortDesc _).nodup_iff.mpr
  exact hwf.1.filter _

theorem sorted_before {l : List Path}
    (hp : l.Pairwise (fun a b => pathLt a b = false))
    {a b : Path} (ha : a ∈ l) (hb : b ∈ l)
    (hlt : pathLt b a = true) : Before l a b := by
  obtain ⟨i, hi⟩ := List.mem_iff_get.mp ha
  obtain ⟨j, hj⟩ := List.mem_iff_get.mp hb
  refine ⟨i, j, ?_, hi, hj⟩
  rcases lt_trichotomy i.1 j.1 with h | h | h
  · exact h
  · exfalso
    have hab : a = b := by
      rw [← hi, ← hj]
      congr 1
      exact Fin.ext h
    rw [hab] at hlt
    have hirr : pathLt b b = false := lexLt_irrefl _
    rw [hirr] at hlt
    exact Bool.false_ne_true hlt
  · exfalso
    have := List.pairwise_iff_get.mp hp j i h
    rw [hi, hj] at this
    rw [this] at hlt
    exact Bool.false_ne_true hlt

/-! ### Order of a nested pair in the snapshot -/

theorem pathChars_cons_ne_nil (c : String) {l : Path} (hl : l ≠ []) :
    pathChars (c :: l) = c.data ++ '/' :: pathChars l := by
  cases l with
  | nil => exact absurd rfl hl
  | cons y ys => rfl

theorem pathLt_parent_child (P R : Path) (X : String) :
    pathLt (P ++ ["index.md"]) (P ++ X :: (R ++ ["index.md"])) =
      lexLt "index.md".data (X.data ++ ['/']) ∧
    pathLt (P ++ X :: (R ++ ["index.md"])) (P ++ ["index.md"]) =
      lexLt (X.data ++ ['/']) "index.md".data := by
  have hRne : R ++ ["index.md"] ≠ [] := by simp
  have hslash : '/' ∉ "index.md".data := by decide
  have hchild : pathChars (X :: (R ++ ["index.md"])) =
      X.data ++ '/' :: pathChars (R ++ ["index.md"]) :=
    pathChars_cons_ne_nil X hRne
  have hext := lexLt_slash_ext hslash X.data (pathChars (R ++ ["index.md"]))
  cases hP : P with
  | nil =>
    constructor
    · show lexLt (pathChars ["index.md"]) (pathChars (X :: (R ++ ["index.md"]))) = _
      rw [hchild]
      have h1 : pathChars ["index.md"] = "index.md".data := rfl
      rw [h1]
      exact hext.1
    · show lexLt (pathChars (X :: (R ++ ["index.md"]))) (pathChars ["index.md"]) = _
      rw [hchild]
      have h1 : pathChars ["index.md"] = "index.md".data := rfl
      rw [h1]
      exact hext.2
  | cons p0 ps =>
    rw [← hP]
    have hPne : P ≠ [] := by rw [hP]; simp
    have hparent : pathChars (P ++ ["index.md"]) =
        pathChars P ++ '/' :: "index.md".data := by
      rw [pathChars_append P ["index.md"] hPne (by simp)]
      rfl
    have hchild2 : pathChars (P ++ X :: (R ++ ["index.md"])) =
        pathChars P ++ '/' :: (X.data ++ '/' :: pathChars (R ++ ["index.md"])) := by
      rw [pathChars_append P (X :: (R ++ ["index.md"])) hPne (by simp), hchild]
    constructor
    · show lexLt (pathChars (P ++ ["index.md"]))
        (pathChars (P ++ X :: (R ++ ["index.md"]))) = _
      rw [hparent, hchild2, List.append_cons (pathChars P) '/' "index.md".data,
        List.append_cons (pathChars P) '/'
          (X.data ++ '/' :: pathChars (R ++ ["index.md"])),
        lexLt_append_left]
      exact hext.1
    · show lexLt (pathChars (P ++ X :: (R ++ ["index.md"])))
        (pathChars (P ++ ["index.md"])) = _
      rw [hparent, hchild2, List.append_cons (pathChars P) '/' "index.md".data,
        List.append_cons (pathChars P) '/'
          (X.data ++ '/' :: pathChars (R ++ ["index.md"])),
        lexLt_append_left]
      exact hext.2

theorem collapseList_keys_from (L : List Path) : ∀ st : CState,
    ∀ e ∈ (collapseList st L).renames, e ∈ st.renames ∨ e.1 ∈ L := by
  induction L with
  | nil => intro st e he; exact Or.inl he
  | cons p ps ih =>
    intro st e he
    rcases ih (collapseStep st p) e he with hmem | hmem
    · by_cases hd : p.dropLast = []
      · rw [collapseStep_root hd] at hmem
        exact Or.inl hmem
      cases hs : soloIndex st.fs p.dropLast with
      | false =>
        rw [collapseStep_not_solo hs] at hmem
        exact Or.inl hmem
      | true =>
        rw [collapseStep_collapse hd hs] at hmem
        rcases List.mem_append.mp hmem with h1 | h2
        · exact Or.inl h1
        · have : e = (p, newPathOf p.dropLast) := by simpa using h2
          rw [this]
          exact Or.inr (List.mem_cons_self p ps)
    · exact Or.inr (List.mem_cons_of_mem p hmem)

/-- C2 amended: reverse-lexicographic enumeration does *not* universally
process a child directory's index before its parent's is examined: for a
nested pair of index documents, the child's entry precedes the parent's
if and only if the child's first path component below the parent,
followed by `/`, is lexicographically greater than the index filename
`index.md` (so e.g. `a/b/index.md` is examined *after* `a/index.md`,
while `a/z/index.md` comes first); and a directory is collapsed during
the pass only if its index document was in the enumeration snapshot —
every RenameMap key is an enumerated snapshot entry — so a directory
whose index appears only through a child collapse is not collapsed in
the same pass (`C2_counterexample`). -/
theorem C2_amended (fs : FS) (hwf : WF fs) (P R : Path) (X : String)
    (hparent : fileExists fs (P ++ ["index.md"]) = true)
    (hchild : fileExists fs (P ++ X :: (R ++ ["index.md"])) = true) :
    (Before (sortIndexPaths fs) (P ++ X :: (R ++ ["index.md"]))
        (P ++ ["index.md"]) ↔
      lexLt "index.md".data (X.data ++ ['/']) = true) ∧
    ∀ e ∈ (collapseRun fs).renames, e.1 ∈ sortIndexPaths fs := by
  have hpair : (sortIndexPaths fs).Pairwise (fun a b => pathLt a b = false) :=
    pairwise_sortDesc (indexPathsOf fs)
  have hparentLast : (P ++ ["index.md"]).getLast? = some "index.md" := by
    simp
  have hchildEq : P ++ X :: (R ++ ["index.md"]) =
      (P ++ X :: R) ++ ["index.md"] := by
    rw [List.append_assoc, List.cons_append]
  have hchildLast : (P ++ X :: (R ++ ["index.md"])).getLast? =
      some "index.md" := by
    rw [hchildEq, List.getLast?_concat]
  have hpm : P ++ ["index.md"] ∈ sortIndexPaths fs :=
    mem_sortIndexPaths_iff.mpr ⟨hparent, hparentLast⟩
  have hcm : P ++ X :: (R ++ ["index.md"]) ∈ sortIndexPaths fs :=
    mem_sortIndexPaths_iff.mpr ⟨hchild, hchildLast⟩
  constructor
  · constructor
    · intro hbef
      cases hcond : lexLt "index.md".data (X.data ++ ['/']) with
      | true => rfl
      | false =>
        exfalso
        have hslashm : '/' ∈ X.data ++ ['/'] :=
          List.mem_append_right _ (List.mem_singleton_self _)
        have hneLex : "index.md".data ≠ X.data ++ ['/'] := by
          intro h0
          rw [← h0] at hslashm
          exact absurd hslashm (by decide)
        have hlt2 : lexLt (X.data ++ ['/']) "index.md".data = true :=
          lexLt_total hcond hneLex
        have hpc : pathLt (P ++ X :: (R ++ ["index.md"]))
            (P ++ ["index.md"]) = true := by
          rw [(pathLt_parent_child P R X).2]
          exact hlt2
        have hbef2 := sorted_before hpair hpm hcm hpc
        have hinj := List.nodup_iff_injective_get.mp
          (nodup_sortIndexPaths hwf)
        obtain ⟨i, j, hij, hi, hj⟩ := hbef
        obtain ⟨i', j', hij', hi', hj'⟩ := hbef2
        have h1 : i = j' := hinj (by rw [hi, hj'])
        have h2 : j = i' := hinj (by rw [hj, hi'])
        have h1' : i.1 = j'.1 := congrArg Fin.val h1
        have h2' : j.1 = i'.1 := congrArg Fin.val h2
        omega
    · intro hcond
      have hpc : pathLt (P ++ ["index.md"])
          (P ++ X :: (R ++ ["index.md"])) = true := by
        rw [(pathLt_parent_child P R X).1]
        exact hcond
      exact sorted_before hpair hcm hpm hpc
  · intro e he
    rcases collapseList_keys_from (sortIndexPaths fs) ⟨fs, []⟩ e he with
      h0 | h0
    · cases h0
    · exact h0

/-- C2 amended witness: with child component `zzz` (which sorts after
`index.md`), the child's index is processed first. -/
theorem C2_amended_witness :
    WF [⟨["a", "index.md"], "P"⟩, ⟨["a", "zzz", "index.md"], "C"⟩] ∧
    fileExists [⟨["a", "index.md"], "P"⟩, ⟨["a", "zzz", "index.md"], "C"⟩]
      ((["a"] : Path) ++ ["index.md"]) = true ∧
    fileExists [⟨["a", "index.md"], "P"⟩, ⟨["a", "zzz", "index.md"], "C"⟩]
      ((["a"] : Path) ++ "zzz" :: (([] : Path) ++ ["index.md"])) = true ∧
    ((Before (sortIndexPaths [⟨["a", "index.md"], "P"⟩,
          ⟨["a", "zzz", "index.md"], "C"⟩])
        ((["a"] : Path) ++ "zzz" :: (([] : Path) ++ ["index.md"]))
        ((["a"] : Path) ++ ["index.md"]) ↔
      lexLt "index.md".data ("zzz".data ++ ['/']) = true) ∧
    ∀ e ∈ (collapseRun [⟨["a", "index.md"], "P"⟩,
        ⟨["a", "zzz", "index.md"], "C"⟩]).renames,
      e.1 ∈ sortIndexPaths [⟨["a", "index.md"], "P"⟩,
        ⟨["a", "zzz", "index.md"], "C"⟩]) :=
  ⟨by decide, by decide, by decide,
    C2_amended [⟨["a", "index.md"], "P"⟩, ⟨["a", "zzz", "index.md"], "C"⟩]
      (by decide) ["a"] [] "zzz" (by decide) (by decide)⟩

/-! ### Machinery for the index-directory clobber -/

theorem collapseList_append (L1 L2 : List Path) : ∀ st : CState,
    collapseList st (L1 ++ L2) = collapseList (collapseList st L1) L2 := by
  induction L1 with
  | nil => intro st; rfl
  | cons p ps ih =>
    intro st
    show collapseList (collapseStep st p) (ps ++ L2) = _
    exact ih (collapseStep st p)

theorem pathsNodup_run (L : List Path) : ∀ st : CState,
    pathsNodup st.fs → pathsNodup (collapseList st L).fs := by
  induction L with
  | nil => intro st h; exact h
  | cons p ps ih => intro st h; exact ih (collapseStep st p) (pathsNodup_step h)

theorem content_absent_step {st : CState} {p : Path} {A : String}
    (h : ∀ f ∈ st.fs, f.content ≠ A) :
    ∀ f ∈ (collapseStep st p).fs, f.content ≠ A := by
  by_cases hd : p.dropLast = []
  · rw [collapseStep_root hd]; exact h
  cases hs : soloIndex st.fs p.dropLast with
  | false => rw [collapseStep_not_solo hs]; exact h
  | true =>
    rw [collapseStep_collapse hd hs]
    intro g hg
    obtain ⟨f, hf, _, hge⟩ := mem_doRename.mp hg
    by_cases hfo : f.path = p
    · rw [if_pos hfo] at hge
      subst hge
      exact h f hf
    · rw [if_neg hfo] at hge
      subst hge
      exact h g hf

theorem content_absent_run (L : List Path) {A : String} : ∀ st : CState,
    (∀ f ∈ st.fs, f.content ≠ A) →
    ∀ f ∈ (collapseList st L).fs, f.content ≠ A := by
  induction L with
  | nil => intro st h; exact h
  | cons p ps ih =>
    intro st h
    exact ih (collapseStep st p) (content_absent_step h)

theorem clobberInv_step {P : Path} {A B : String} {st : CState} {q : Path}
    (hq : q.getLast? = some "index.md")
    (hqp : q ≠ P ++ ["index", "index.md"])
    (hqf : q ≠ P ++ ["index.md"])
    (hinv : ClobberInv P A B st) : ClobberInv P A B (collapseStep st q) := by
  obtain ⟨ha, hb, hc, hd4⟩ := hinv
  refine ⟨step_keep hq ha (Ne.symm hqp), ?_, ?_, ?_⟩
  all_goals
    by_cases hdq : q.dropLast = []
  · rw [collapseStep_root hdq]; exact hb
  case neg =>
    cases hs : soloIndex st.fs q.dropLast with
    | false => rw [collapseStep_not_solo hs]; exact hb
    | true =>
      rw [collapseStep_collapse hdq hs]
      have hqex : fileExists st.fs q = true := by
        have := soloIndex_exists_index hs
        rw [← index_path_eq hq] at this
        exact this
      intro g hg hgp
      obtain ⟨f, hf, hfne, hge⟩ := mem_doRename.mp hg
      by_cases hfo : f.path = q
      · exfalso
        rw [if_pos hfo] at hge
        subst hge
        have hnp : (newPathOf q.dropLast) = P ++ ["index", "index.md"] := hgp
        have hIdq : q.dropLast.dropLast = P ++ ["index"] := by
          have h1 : (newPathOf q.dropLast).dropLast = q.dropLast.dropLast := by
            rw [newPathOf_eq hdq, List.dropLast_concat]
          rw [hnp] at h1
          have h2 : (P ++ ["index", "index.md"]).dropLast = P ++ ["index"] := by
            have : P ++ ["index", "index.md"] =
                (P ++ ["index"]) ++ ["index.md"] := by
              rw [List.append_assoc]
              rfl
            rw [this, List.dropLast_concat]
          rw [h2] at h1
          exact h1.symm
        obtain ⟨fq, hfq, hfqp⟩ := exists_file_at hqex
        have hprq : (P ++ ["index"]).isPrefixOf fq.path = true := by
          rw [hfqp]
          rw [List.isPrefixOf_iff_prefix]
          calc P ++ ["index"] <+: q.dropLast := by
                rw [← hIdq]
                exact List.dropLast_prefix _
            _ <+: q := List.dropLast_prefix _
        have hlenq : (P ++ ["index"]).length < fq.path.length := by
          rw [hfqp]
          rw [← hIdq]
          have h3 : q.dropLast.dropLast.length + 1 = q.dropLast.length := by
            rw [List.length_dropLast]
            have := List.length_pos.mpr hdq
            omega
          have hqne : q ≠ [] := by
            intro h0
            rw [h0] at hdq
            exact hdq rfl
          have h4 : q.dropLast.length + 1 = q.length := by
            rw [List.length_dropLast]
            have := List.length_pos.mpr hqne
            omega
          omega
        have := hc fq hfq hprq hlenq
        rw [hfqp] at this
        exact hqp this
      · rw [if_neg hfo] at hge
        subst hge
        exact hb g hf hgp
  · rw [collapseStep_root hdq]; exact hc
  case neg =>
    cases hs : soloIndex st.fs q.dropLast with
    | false => rw [collapseStep_not_solo hs]; exact hc
    | true =>
      rw [collapseStep_collapse hdq hs]
      have hqex : fileExists st.fs q = true := by
        have := soloIndex_exists_index hs
        rw [← index_path_eq hq] at this
        exact this
      intro g hg hgpre hglen
      obtain ⟨f, hf, hfne, hge⟩ := mem_doRename.mp hg
      by_cases hfo : f.path = q
      · exfalso
        rw [if_pos hfo] at hge
        subst hge
        have hgp : (⟨newPathOf q.dropLast, f.content⟩ : FSFile).path =
            newPathOf q.dropLast := rfl
        rw [hgp] at hgpre hglen
        rw [newPathOf_eq hdq] at hgpre hglen
        have hlenA : (P ++ ["index"]).length ≤ q.dropLast.dropLast.length := by
          rw [List.length_append, List.length_singleton] at hglen ⊢
          rw [List.length_append] at hglen
          simp only [List.length_singleton] at hglen
          omega
        have hpreA : (P ++ ["index"]).isPrefixOf q.dropLast.dropLast = true :=
          prefix_of_append_singleton hgpre hlenA
        obtain ⟨fq, hfq, hfqp⟩ := exists_file_at hqex
        have hprq : (P ++ ["index"]).isPrefixOf fq.path = true := by
          rw [hfqp, List.isPrefixOf_iff_prefix]
          calc P ++ ["index"]
              <+: q.dropLast.dropLast := List.isPrefixOf_iff_prefix.mp hpreA
            _ <+: q.dropLast := List.dropLast_prefix _
            _ <+: q := List.dropLast_prefix _
        have hqne : q ≠ [] := by
          intro h0
          rw [h0] at hdq
          exact hdq rfl
        have hlenq : (P ++ ["index"]).length < fq.path.length := by
          rw [hfqp]
          have h3 : q.dropLast.dropLast.length + 1 = q.dropLast.length := by
            rw [List.length_dropLast]
            have := List.length_pos.mpr hdq
            omega
          have h4 : q.dropLast.length + 1 = q.length := by
            rw [List.length_dropLast]
            have := List.length_pos.mpr hqne
            omega
          omega
        have := hc fq hfq hprq hlenq
        rw [hfqp] at this
        exact hqp this
      · rw [if_neg hfo] at hge
        subst hge
        exact hc g hf hgpre hglen
  · rw [collapseStep_root hdq]; exact hd4
  case neg =>
    cases hs : soloIndex st.fs q.dropLast with
    | false => rw [collapseStep_not_solo hs]; exact hd4
    | true =>
      rw [collapseStep_collapse hdq hs]
      intro g hg hgA
      obtain ⟨f, hf, hfne, hge⟩ := mem_doRename.mp hg
      by_cases hfo : f.path = q
      · exfalso
        rw [if_pos hfo] at hge
        subst hge
        have : f.content = A := hgA
        have hfp := hd4 f hf this
        rw [hfo] at hfp
        exact hqf hfp
      · rw [if_neg hfo] at hge
        subst hge
        exact hd4 g hf hgA

theorem clobberInv_run {P : Path} {A B : String} (L : List Path)
    (hL : ∀ q ∈ L, q.getLast? = some "index.md" ∧
      q ≠ P ++ ["index", "index.md"] ∧ q ≠ P ++ ["index.md"]) :
    ∀ st : CState, ClobberInv P A B st →
      ClobberInv P A B (collapseList st L) := by
  induction L with
  | nil => intro st h; exact h
  | cons p ps ih =>
    intro st h
    obtain ⟨h1, h2, h3⟩ := hL p (List.mem_cons_self p ps)
    exact ih (fun r hr => hL r (List.mem_cons_of_mem p hr))
      (collapseStep st p) (clobberInv_step h1 h2 h3 h)

/-- C9: if a parent directory has its own `index.md` (content `A`,
occurring nowhere else) and a subdirectory named exactly `index` whose
sole content is an `index.md` (content `B ≠ A`) and which has no
subdirectories, then the Collapser moves `index/index.md` to the
parent's `index.md` path — recording exactly that rename — silently
replacing the parent's pre-existing index content: after the run no file
of the tree carries the content `A`, and nothing in the RenameMap (a
bare old-path→new-path record) reflects that the destination previously
existed. -/
theorem C9_index_dir_clobber (fs : FS) (hwf : WF fs) (P : Path)
    (A B : String) (hAB : A ≠ B)
    (hA : (⟨P ++ ["index.md"], A⟩ : FSFile) ∈ fs)
    (hB : (⟨P ++ ["index", "index.md"], B⟩ : FSFile) ∈ fs)
    (hsolo : ∀ f ∈ fs, (P ++ ["index"]).isPrefixOf f.path = true →
      (P ++ ["index"]).length < f.path.length →
      f.path = P ++ ["index", "index.md"])
    (hAuniq : ∀ f ∈ fs, f.content = A → f.path = P ++ ["index.md"]) :
    (P ++ ["index", "index.md"], P ++ ["index.md"]) ∈
      (collapseRun fs).renames ∧
    ∀ f ∈ (collapseRun fs).fs, f.content ≠ A := by
  have hp0eq : P ++ ["index", "index.md"] =
      (P ++ ["index"]) ++ ["index.md"] := by
    rw [List.append_assoc]
    rfl
  have hp0last : (P ++ ["index", "index.md"]).getLast? = some "index.md" := by
    rw [hp0eq, List.getLast?_concat]
  have hp0mem : P ++ ["index", "index.md"] ∈ sortIndexPaths fs :=
    mem_sortIndexPaths_iff.mpr
      ⟨fileExists_iff.mpr ⟨_, hB, rfl⟩, hp0last⟩
  obtain ⟨L1, L2, hsplit⟩ := List.append_of_mem hp0mem
  have hnd := nodup_sortIndexPaths hwf
  rw [hsplit] at hnd
  have hdisj := (List.nodup_append.mp hnd).2.2
  have hp0nin : P ++ ["index", "index.md"] ∉ L1 := fun h =>
    hdisj h (List.mem_cons_self _ _)
  have hpair : (sortIndexPaths fs).Pairwise (fun a b => pathLt a b = false) :=
    pairwise_sortDesc (indexPathsOf fs)
  rw [hsplit] at hpair
  have hp3 := (List.pairwise_append.mp hpair).2.2
  have hlt : pathLt (P ++ ["index.md"]) (P ++ ["index", "index.md"]) =
      true := by
    have h1 := (pathLt_parent_child P [] "index").1
    have h2 : ("index" :: (([] : Path) ++ ["index.md"])) =
        (["index", "index.md"] : Path) := rfl
    rw [h2] at h1
    rw [h1]
    decide
  have hf1nin : P ++ ["index.md"] ∉ L1 := by
    intro hmem
    have := hp3 _ hmem _ (List.mem_cons_self _ _)
    rw [hlt] at this
    exact Bool.false_ne_true this.symm
  have hL1 : ∀ q ∈ L1, q.getLast? = some "index.md" ∧
      q ≠ P ++ ["index", "index.md"] ∧ q ≠ P ++ ["index.md"] := by
    intro q hq
    refine ⟨?_, ?_, ?_⟩
    · apply @mem_sortIndexPaths_getLast fs q
      rw [hsplit]
      exact List.mem_append_left _ hq
    · intro h0
      rw [h0] at hq
      exact hp0nin hq
    · intro h0
      rw [h0] at hq
      exact hf1nin hq
  have hinv0 : ClobberInv P A B ⟨fs, []⟩ := by
    refine ⟨fileExists_iff.mpr ⟨_, hB, rfl⟩, ?_, hsolo, hAuniq⟩
    intro f hf hfp
    have hfeq : f = ⟨P ++ ["index", "index.md"], B⟩ :=
      List.inj_on_of_nodup_map hwf.1 hf hB hfp
    rw [hfeq]
  have hinv1 := clobberInv_run L1 hL1 ⟨fs, []⟩ hinv0
  obtain ⟨ha1, hb1, hc1, hd1⟩ := hinv1
  have hnd1 : pathsNodup (collapseList ⟨fs, []⟩ L1).fs :=
    pathsNodup_run L1 ⟨fs, []⟩ hwf.1
  -- the criterion holds for P/index at this point
  have hIne : (P ++ ["index"] : Path) ≠ [] := by simp
  have hp0len : (P ++ ["index", "index.md"]).length =
      (P ++ ["index"]).length + 1 := by
    rw [hp0eq, List.length_append, List.length_singleton]
  have hmem0 : P ++ ["index", "index.md"] ∈
      mdChildren (collapseList ⟨fs, []⟩ L1).fs (P ++ ["index"]) := by
    apply mem_mdChildren.mpr
    refine ⟨ha1, by simp, ?_, ?_⟩
    · rw [hp0eq, List.dropLast_concat]
    · rw [hp0last]
      decide
  have hall : ∀ x ∈ mdChildren (collapseList ⟨fs, []⟩ L1).fs
      (P ++ ["index"]), x = P ++ ["index", "index.md"] := by
    intro x hx
    obtain ⟨hex, hne, hdl, _⟩ := mem_mdChildren.mp hx
    obtain ⟨f, hf, hfp⟩ := exists_file_at hex
    have hxe : x = (P ++ ["index"]) ++ [x.getLast?.getD ""] := by
      have := eq_dropLast_concat_of_ne_nil hne
      rw [hdl] at this
      exact this
    have hpre : (P ++ ["index"]).isPrefixOf f.path = true := by
      rw [hfp, hxe, List.isPrefixOf_iff_prefix]
      exact List.prefix_append _ _
    have hlen : (P ++ ["index"]).length < f.path.length := by
      have hlx : ((P ++ ["index"]) ++ [x.getLast?.getD ""]).length =
          (P ++ ["index"]).length + 1 := by
        rw [List.length_append, List.length_singleton]
      rw [hfp, hxe, hlx]
      omega
    have := hc1 f hf hpre hlen
    rw [hfp] at this
    exact this
  have heq : mdChildren (collapseList ⟨fs, []⟩ L1).fs (P ++ ["index"]) =
      [P ++ ["index", "index.md"]] :=
    singleton_of_nodup_forall (hnd1.filter _) hmem0 hall
  have hnsub : hasSubdir (collapseList ⟨fs, []⟩ L1).fs (P ++ ["index"]) =
      false := by
    cases hh : hasSubdir (collapseList ⟨fs, []⟩ L1).fs (P ++ ["index"]) with
    | false => rfl
    | true =>
      exfalso
      unfold hasSubdir at hh
      rw [List.any_eq_true] at hh
      obtain ⟨f, hf, hcond⟩ := hh
      rw [Bool.and_eq_true, Bool.and_eq_true] at hcond
      obtain ⟨⟨hpre, hlen⟩, _⟩ := hcond
      have hlen' : (P ++ ["index"]).length + 1 < f.path.length :=
        of_decide_eq_true hlen
      have := hc1 f hf hpre (by omega)
      rw [this, hp0len] at hlen'
      omega
  have hsolo2 : soloIndex (collapseList ⟨fs, []⟩ L1).fs (P ++ ["index"]) =
      true := by
    unfold soloIndex
    rw [heq]
    show ((P ++ ["index", "index.md"]).getLast? == some "index.md" &&
      !hasSubdir (collapseList ⟨fs, []⟩ L1).fs (P ++ ["index"])) = true
    rw [hp0last, hnsub]
    simp
  have hdrop : (P ++ ["index", "index.md"]).dropLast = P ++ ["index"] := by
    rw [hp0eq, List.dropLast_concat]
  have hnewf1 : newPathOf (P ++ ["index", "index.md"]).dropLast =
      P ++ ["index.md"] := by
    rw [hdrop, newPathOf_eq hIne, List.dropLast_concat, List.getLast?_concat]
    have : withSuffixMd "index" = "index.md" := by decide
    rw [show (some "index").getD "" = "index" from rfl, this]
  have hd0 : (P ++ ["index", "index.md"]).dropLast ≠ [] := by
    rw [hdrop]
    exact hIne
  have hsolo3 : soloIndex (collapseList ⟨fs, []⟩ L1).fs
      (P ++ ["index", "index.md"]).dropLast = true := by
    rw [hdrop]
    exact hsolo2
  have hstep := @collapseStep_collapse (collapseList ⟨fs, []⟩ L1)
    (P ++ ["index", "index.md"]) hd0 hsolo3
  have hrun : collapseRun fs =
      collapseList (collapseStep (collapseList ⟨fs, []⟩ L1)
        (P ++ ["index", "index.md"])) L2 := by
    show collapseList ⟨fs, []⟩ (sortIndexPaths fs) = _
    rw [hsplit, collapseList_append]
    rfl
  constructor
  · rw [hrun]
    apply renames_mono
    rw [hstep, hnewf1]
    exact List.mem_append_right _ (List.mem_singleton_self _)
  · rw [hrun]
    apply content_absent_run
    intro g hg hgA
    rw [hstep] at hg
    have hg' : g ∈ doRename (collapseList ⟨fs, []⟩ L1).fs
        (P ++ ["index", "index.md"])
        (newPathOf (P ++ ["index", "index.md"]).dropLast) := hg
    obtain ⟨f, hf, hfne, hge⟩ := mem_doRename.mp hg'
    by_cases hfo : f.path = P ++ ["index", "index.md"]
    · rw [if_pos hfo] at hge
      subst hge
      have hfB : f.content = B := hb1 f hf hfo
      have : f.content = A := hgA
      rw [hfB] at this
      exact hAB this.symm
    · rw [if_neg hfo] at hge
      subst hge
      have := hd1 g hf hgA
      rw [hnewf1] at hfne
      exact hfne this

/-- C9 witness: the parent `sec` loses its index content when `sec/index`
collapses onto it. -/
theorem C9_index_dir_clobber_witness :
    WF [⟨["sec", "index.md"], "PARENT"⟩,
        ⟨["sec", "index", "index.md"], "CHILD"⟩] ∧
    ("PARENT" : String) ≠ "CHILD" ∧
    (((["sec"] : Path) ++ ["index", "index.md"],
        (["sec"] : Path) ++ ["index.md"]) ∈
      (collapseRun [⟨["sec", "index.md"], "PARENT"⟩,
        ⟨["sec", "index", "index.md"], "CHILD"⟩]).renames ∧
    ∀ f ∈ (collapseRun [⟨["sec", "index.md"], "PARENT"⟩,
        ⟨["sec", "index", "index.md"], "CHILD"⟩]).fs,
      f.content ≠ "PARENT") :=
  ⟨by decide, by decide,
    C9_index_dir_clobber
      [⟨["sec", "index.md"], "PARENT"⟩,
        ⟨["sec", "index", "index.md"], "CHILD"⟩]
      (by decide) ["sec"] "PARENT" "CHILD" (by decide) (by decide)
      (by decide) (by decide) (by decide)⟩
